import Mathlib

/-!
Verification of the homily-podcast-tool transcript segmentation and
weekend-grouping core.  The definitions below are a shallow embedding of
`homily_monitor/audio_utils.py` (timestamp codec, VTT cue parser, boundary
detector), `homily_monitor/gpt_utils.py` (weekend group-key assignment) and
`homily_monitor/helpers.py` (`check_for_completed_weekends`, the deviation
sweep).  Machine floats are modelled by `ℚ`, Python `None` by `Option`,
Python exceptions by `Option`/early return.
-/

namespace HomilyMonitor

/-! Models of the Python string primitives used by the source. -/

/-- Characters stripped by Python `str.strip()` (ASCII whitespace set). -/
def pySpace (c : Char) : Bool :=
  c = ' ' || c = '\t' || c = '\n' || c = '\r' || c = '\x0b' || c = '\x0c'

/-- Model of Python `str.strip()` on a character list. -/
def stripChars (cs : List Char) : List Char :=
  ((cs.dropWhile pySpace).reverse.dropWhile pySpace).reverse

/-- Model of Python `str.strip()`. -/
def pyStrip (s : String) : String := ⟨stripChars s.toList⟩

/-- Model of Python `str.split(sep)` for a single-character separator:
`"".split(c) = [""]`, and every occurrence of `sep` opens a new field. -/
def splitChar (sep : Char) : List Char → List (List Char)
  | [] => [[]]
  | c :: rest =>
    match splitChar sep rest with
    | [] => [[]]
    | g :: gs => if c = sep then [] :: g :: gs else (c :: g) :: gs

/-- Numeric value of an ASCII digit character. -/
def digitVal (c : Char) : ℕ := c.toNat - 48

/-- Continuation of `decNat?` after at least one digit has been consumed:
further digits accumulate, a single underscore is allowed between digits
(Python integer-literal grouping rule used by `int(str)`). -/
def digitsCore : ℕ → List Char → Option ℕ
  | acc, [] => some acc
  | acc, c :: rest =>
    if c.isDigit then digitsCore (acc * 10 + digitVal c) rest
    else if c = '_' then
      match rest with
      | d :: rest2 =>
        if d.isDigit then digitsCore (acc * 10 + digitVal d) rest2 else none
      | [] => none
    else none

/-- Digit-string to natural number, with Python underscore grouping;
`none` when the string is not a valid unsigned decimal numeral. -/
def decNat? : List Char → Option ℕ
  | [] => none
  | c :: rest => if c.isDigit then digitsCore (digitVal c) rest else none

/-- Sign handling of Python `int(str)` on the whitespace-stripped input. -/
def pyIntCore : List Char → Option ℤ
  | [] => none
  | c :: rest =>
    if c = '+' then (decNat? rest).map Int.ofNat
    else if c = '-' then (decNat? rest).map (fun n => -(Int.ofNat n))
    else (decNat? (c :: rest)).map Int.ofNat

/-- Model of Python `int(str)`: optional surrounding whitespace, an optional
sign, then a decimal numeral; `none` models the `ValueError`. -/
def pyInt (s : List Char) : Option ℤ := pyIntCore (stripChars s)

/-! Timestamp codec: `parse_timestamp` from `audio_utils.py`.

The Python code computes the float `h*3600 + m*60 + s + ms/1000` seconds.
Every value the program constructs is an exact integer multiple of one
millisecond, so a time value is represented exactly by its number of
milliseconds (an `ℤ`); `toSecs` recovers the number of seconds as a `ℚ`.
All orderings and equalities the code performs on these floats coincide
with the corresponding orderings on the millisecond representation. -/

/-- Exact millisecond representation of a Python float number of seconds. -/
abbrev Millis := ℤ

/-- The number of seconds denoted by a `Millis` value. -/
def toSecs (v : Millis) : ℚ := (v : ℚ) / 1000

/-- Hours/minutes/seconds part of `parse_timestamp` (in whole seconds):
split the (dot-free) time part on `:`; three numeric fields mean `h, m, s`,
two mean `m, s` with hours defaulting to 0; any other field count or a
non-numeric field is a `ValueError` (`none`). -/
def parseHMS (timePart : List Char) : Option ℤ :=
  match splitChar ':' timePart with
  | [a, b, c] => do
      let h ← pyInt a
      let m ← pyInt b
      let s ← pyInt c
      pure (h * 3600 + m * 60 + s)
  | [b, c] => do
      let m ← pyInt b
      let s ← pyInt c
      pure (m * 60 + s)
  | _ => none

/-- Model of `parse_timestamp` (`audio_utils.py`): if the string contains a
dot it must split into exactly two parts, the fractional part is read with
`int` and contributes `ms / 1000` seconds (here: `ms` milliseconds); the
rest is `parseHMS`.  `none` models every `ValueError` path. -/
def parse_timestamp (ts : String) : Option Millis :=
  let cs := ts.toList
  if '.' ∈ cs then
    match splitChar '.' cs with
    | [t, m] => do
        let ms ← pyInt m
        let base ← parseHMS t
        pure (base * 1000 + ms)
    | _ => none
  else do
    let base ← parseHMS cs
    pure (base * 1000)

example : parse_timestamp "00:00:05.000" = some 5000 := by decide
example : parse_timestamp "13:52.380" = some 832380 := by decide
example : parse_timestamp "1:02:03" = some 3723000 := by decide
example : parse_timestamp "0:-5" = some (-5000) := by decide
example : parse_timestamp "1:2:3:4" = none := by decide
example : parse_timestamp "ab:cd" = none := by decide
example : parse_timestamp "1.2.3" = none := by decide

/-! Cue parser: the VTT scanning loop of `extract_homily_from_vtt`
(`audio_utils.py`). -/

/-- One timestamped text span.  `start` and `«end»` are in milliseconds
(see `Millis`); `text` is the accumulated, stripped cue text. -/
structure Cue where
  start : Millis
  «end» : Millis
  text : String
  deriving DecidableEq, Repr

/-- Characters matched by the regex class `\s` (ASCII part). -/
def reSpace (c : Char) : Bool :=
  c = ' ' || c = '\t' || c = '\n' || c = '\r' || c = '\x0b' || c = '\x0c'

/-- Model of a substring test, Python `needle in haystack`. -/
def containsSub (needle hay : String) : Bool :=
  decide (needle.toList <:+: hay.toList)

/-- Matcher for one timestamp of the separator regex,
`\d+:\d{2}(?::\d{2})?\.\d{3}`, anchored at the head of the character
list; returns the matched characters and the remaining input.  The
pattern is deterministic: after `\d+:\d{2}` a following `:` forces the
optional group and a following `.` forbids it. -/
def matchStamp (cs : List Char) : Option (List Char × List Char) :=
  let ds := cs.takeWhile Char.isDigit
  let r1 := cs.dropWhile Char.isDigit
  if ds.isEmpty then none
  else
    match r1 with
    | ':' :: d1 :: d2 :: rest =>
      if d1.isDigit && d2.isDigit then
        match rest with
        | ':' :: e1 :: e2 :: '.' :: f1 :: f2 :: f3 :: rest2 =>
          if e1.isDigit && e2.isDigit && f1.isDigit && f2.isDigit && f3.isDigit then
            some (ds ++ [':', d1, d2, ':', e1, e2, '.', f1, f2, f3], rest2)
          else none
        | '.' :: f1 :: f2 :: f3 :: rest2 =>
          if f1.isDigit && f2.isDigit && f3.isDigit then
            some (ds ++ [':', d1, d2, '.', f1, f2, f3], rest2)
          else none
        | _ => none
      else none
    | _ => none

/-- Model of `re.match` with the separator pattern
`(\d+:\d{2}(?::\d{2})?\.\d{3})\s-->\s(\d+:\d{2}(?::\d{2})?\.\d{3})`:
a prefix match returning the two captured timestamp strings. -/
def matchSepLine (line : String) : Option (String × String) :=
  match matchStamp line.toList with
  | none => none
  | some (s1, r) =>
    match r with
    | w1 :: '-' :: '-' :: '>' :: w2 :: r2 =>
      if reSpace w1 && reSpace w2 then
        match matchStamp r2 with
        | some (s2, _) => some (⟨s1⟩, ⟨s2⟩)
        | none => none
      else none
    | _ => none

/-- Pairing of the two parsed separator timestamps; `none` when either
raises. -/
def stampsPair : Option Millis → Option Millis → Option (Millis × Millis)
  | some s, some e => some (s, e)
  | _, _ => none

/-- Both timestamps of a pattern-matched separator line, parsed; `none`
when the pattern does not match or either timestamp raises. -/
def lineStamps (line : String) : Option (Millis × Millis) :=
  match matchSepLine line with
  | none => none
  | some (a, b) => stampsPair (parse_timestamp a) (parse_timestamp b)

/-- State of the VTT line scan: finalized entries, the open cue times
(`current_time`), the open text accumulator (`current_text`) and the
invalid-timestamp count. -/
structure VState where
  entries : List Cue
  cur : Option (Millis × Millis)
  text : String
  invalid : ℕ
  deriving DecidableEq, Repr

/-- Finalize the open cue exactly as the loop does on seeing a separator
line: append it when a cue is open and its stripped text is non-empty. -/
def finalizeCur (st : VState) : List Cue :=
  match st.cur with
  | some (s, e) =>
    if pyStrip st.text ≠ "" then st.entries ++ [⟨s, e, pyStrip st.text⟩]
    else st.entries
  | none => st.entries

/-- Opening of a new cue from the two parsed separator timestamps: both
parse successes open the cue (resetting the text accumulator), any
`ValueError` increments the invalid count and leaves the open cue
untouched. -/
def newCueStep (st : VState) : Option Millis → Option Millis → VState
  | some s, some e => ⟨finalizeCur st, some (s, e), "", st.invalid⟩
  | _, _ => ⟨finalizeCur st, st.cur, st.text, st.invalid + 1⟩

/-- Handling of a line containing `-->`: the open cue is finalized first,
then the separator pattern decides whether a new cue opens (a pattern
mismatch is only logged). -/
def sepStep (st : VState) : Option (String × String) → VState
  | some (a, b) => newCueStep st (parse_timestamp a) (parse_timestamp b)
  | none => ⟨finalizeCur st, st.cur, st.text, st.invalid⟩

/-- One iteration of the `for line in lines` loop of
`extract_homily_from_vtt`: strip the line; skip blanks; on a line
containing `-->` run `sepStep`; any other line is appended to the open
cue's text. -/
def vttStep (st : VState) (rawLine : String) : VState :=
  if pyStrip rawLine = "" then st
  else if containsSub "-->" (pyStrip rawLine) then
    sepStep st (matchSepLine (pyStrip rawLine))
  else if st.cur.isSome then
    { st with text := st.text ++ " " ++ pyStrip rawLine }
  else st

/-- The whole cue-parsing pass: fold the line loop, then finalize the
still-open cue; returns the ordered cue sequence and the
invalid-timestamp count. -/
def parseVtt (lines : List String) : List Cue × ℕ :=
  let st := lines.foldl vttStep ⟨[], none, "", 0⟩
  (finalizeCur st, st.invalid)

example :
    parseVtt ["WEBVTT", "", "00:00:05.000 --> 00:00:07.000",
              "The Gospel of the Lord."] =
      ([⟨5000, 7000, "The Gospel of the Lord."⟩], 0) := by decide

/-! Boundary detector: the heuristic scan, the GPT fallback resolution and
the end re-scan of `extract_homily_from_vtt`. -/

/-- Model of Python `str.lower()` (ASCII case folding). -/
def pyLower (s : String) : String := ⟨s.toList.map Char.toLower⟩

/-- Model of `" ".join(...)`. -/
def joinSpace (ws : List String) : String := String.intercalate " " ws

/-- Membership of any of the markers as a substring. -/
def hasAny (markers : List String) (s : String) : Bool :=
  markers.any (fun m => containsSub m s)

/-- The `gospel_end_markers` list of `extract_homily_from_vtt`. -/
def gospel_end_markers : List String :=
  ["the gospel of the lord", "gospel of the lord", "praise to you"]

/-- The `end_markers` list of `extract_homily_from_vtt`. -/
def end_markers : List String :=
  ["we pray to the lord", "lord, hear our prayer", "let us offer our prayers",
   "prayers of petition", "at the intercession", "i believe in one god",
   "prayer of the faithful", "prayers of the faithful"]

/-- Does this cue's lower-cased text contain a gospel-end marker? -/
def isGospelCue (c : Cue) : Bool := hasAny gospel_end_markers (pyLower c.text)

/-- Append to the `deque(maxlen=10)` trailing window: oldest evicted. -/
def pushWin (w : List String) (t : String) : List String :=
  let w2 := w ++ [t]
  w2.drop (w2.length - 10)

/-- The window test of the end-seeking phase: lower-case the space-joined
window contents and look for any end-marker phrase. -/
def winMatches (w : List String) : Bool := hasAny end_markers (pyLower (joinSpace w))

/-- Python truthiness of the `homily_start` float: `if homily_start:` is
taken only for a non-`None`, non-zero value. -/
def truthyMs : Option Millis → Bool
  | some v => v != 0
  | none => false

/-- State of the first heuristic loop: `found_gospel`, `homily_start`,
`homily_end` and the trailing window `recent_texts`. -/
structure ScanS where
  foundGospel : Bool
  hs : Option Millis
  he : Option Millis
  win : List String
  deriving DecidableEq, Repr

/-- The `homily_start`-setting step of the first heuristic loop: after the
gospel marker, the first cue with non-empty text sets `homily_start` and
resets the window. -/
def setStart (st : ScanS) (c : Cue) : ScanS :=
  if st.foundGospel = true ∧ st.hs = none ∧ pyStrip c.text ≠ "" then
    { st with hs := some c.start, win := [] }
  else st

/-- The first heuristic loop of `extract_homily_from_vtt`: a cue containing
a gospel-end marker sets `found_gospel` and is skipped (`continue`); then
`setStart` may set `homily_start`; while `homily_start` is truthy, each
scanned cue's text is appended to the window and on a window match
`homily_end` is set to that cue's start and the loop breaks. -/
def scan1 : List Cue → ScanS → ScanS
  | [], st => st
  | c :: rest, st =>
    if isGospelCue c then
      scan1 rest { st with foundGospel := true }
    else
      if truthyMs (setStart st c).hs then
        if winMatches (pushWin (setStart st c).win c.text) then
          { (setStart st c) with
              win := pushWin (setStart st c).win c.text
              he := some c.start }
        else
          scan1 rest
            { (setStart st c) with win := pushWin (setStart st c).win c.text }
      else scan1 rest (setStart st c)

/-- Initial state of the heuristic scan. -/
def initScan : ScanS := ⟨false, none, none, []⟩

/-- The end re-scan loop (`audio_utils.py` lines 348-362): skip cues that
start before `homily_start`, append the rest to a fresh window, and return
the start of the first cue whose window matches; `none` when exhausted. -/
def scan2 (s : Millis) : List Cue → List String → Option Millis
  | [], _ => none
  | c :: rest, win =>
    if c.start < s then scan2 s rest win
    else if winMatches (pushWin win c.text) then some c.start
    else scan2 s rest (pushWin win c.text)

/-- Minimum value of a list, Python `min`; `none` on the empty list. -/
def qmin : List Millis → Option Millis
  | [] => none
  | a :: rest =>
    match qmin rest with
    | none => some a
    | some b => some (min a b)

/-- The first operand if present, else the fallback — the shape of the
`min(..., default=...)` and `homily_end` resolutions. -/
def orElseO (fallback : Option Millis) : Option Millis → Option Millis
  | some v => some v
  | none => fallback

/-- Resolution of the GPT fallback timestamp onto the cue timeline:
`min((e.start for e in entries if e.start >= t), default = last start)`,
and `none` when there are no entries at all. -/
def resolveFallback (entries : List Cue) (t : Millis) : Option Millis :=
  orElseO ((entries.getLast?).map Cue.start)
    (qmin ((entries.filter (fun c => t ≤ c.start)).map Cue.start))

/-- End resolution after a start is known: keep a loop-1 end if present,
otherwise run the re-scan, otherwise default to the last cue's end. -/
def detectEnd (entries : List Cue) (he1 : Option Millis) (s : Millis) :
    Option Millis :=
  orElseO (orElseO ((entries.getLast?).map Cue.«end») (scan2 s entries [])) he1

/-- Resolution of the parsed GPT timestamp; `none` when parsing raised. -/
def fallbackFromParse (entries : List Cue) : Option Millis → Option Millis
  | none => none
  | some t => resolveFallback entries t

/-- The GPT fallback path for the homily start: `none` models an API error
or undecodable JSON, `some gs` the `start_timestamp` field; an empty
field or an unparseable timestamp yields no start. -/
def fallbackStart (entries : List Cue) : Option String → Option Millis
  | none => none
  | some gs =>
    if gs = "" then none
    else fallbackFromParse entries (parse_timestamp gs)

/-- Pairing of the resolved start with the resolved end. -/
def pairEnd (s : Millis) : Option Millis → Option (Millis × Millis)
  | some e => some (s, e)
  | none => none

/-- Assembly of the final window from the scan state and resolved start. -/
def windowFrom (entries : List Cue) (r : ScanS) :
    Option Millis → Option (Millis × Millis)
  | none => none
  | some s => pairEnd s (detectEnd entries r.he s)

/-- The whole boundary detection of `extract_homily_from_vtt` on a parsed
cue sequence: the heuristic start if found, else the fallback-resolved
start; then the end resolution; the result is the `(homily_start,
homily_end)` window handed to ffmpeg, `none` when no window is produced. -/
def detect (entries : List Cue) (gpt : Option String) :
    Option (Millis × Millis) :=
  windowFrom entries (scan1 entries initScan)
    (orElseO (fallbackStart entries gpt) (scan1 entries initScan).hs)

/-- Spec-side end scan, following the amended wording of the end-seeking
phase: append every cue's text to the window, test after each append, and
return the first matching cue's start. -/
def endScanSpec : List Cue → List String → Option Millis
  | [], _ => none
  | c :: rest, win =>
    if winMatches (pushWin win c.text) then some c.start
    else endScanSpec rest (pushWin win c.text)

example :
    detect [⟨5000, 7000, "The Gospel of the Lord."⟩,
            ⟨8000, 20000, "Brothers and sisters..."⟩,
            ⟨21000, 25000, "Let us offer our prayers."⟩] none =
      some (8000, 21000) := by decide

example :
    detect [⟨2000, 3000, "hello there"⟩] (some "0:01.000") =
      some (2000, 3000) := by decide

/-! Calendar model: Python `datetime.date` (proleptic Gregorian), as used
by the group-key rule of `analyze_transcript_with_gpt` (`gpt_utils.py`)
and by the deadline computation of `check_for_completed_weekends`. -/

/-- A calendar date, mirroring `datetime.date`. -/
structure PyDate where
  year : ℕ
  month : ℕ
  day : ℕ
  deriving DecidableEq, Repr

/-- Gregorian leap-year rule. -/
def isLeap (y : ℕ) : Bool := (y % 4 = 0 && y % 100 ≠ 0) || y % 400 = 0

/-- Number of days in a month. -/
def daysInMonth (y m : ℕ) : ℕ :=
  if m = 2 then (if isLeap y then 29 else 28)
  else if m = 4 ∨ m = 6 ∨ m = 9 ∨ m = 11 then 30
  else 31

/-- Days in all years strictly before year `y` (year 1 is the first). -/
def daysBeforeYear (y : ℕ) : ℕ :=
  (y - 1) * 365 + (y - 1) / 4 - (y - 1) / 100 + (y - 1) / 400

/-- Days in the months of year `y` strictly before month `m`. -/
def daysBeforeMonth (y m : ℕ) : ℕ :=
  ((List.range m).filter (fun i => 1 ≤ i)).foldl
    (fun acc i => acc + daysInMonth y i) 0

/-- Model of `date.toordinal()`: 0001-01-01 is day 1. -/
def toOrdinal (d : PyDate) : ℕ :=
  daysBeforeYear d.year + daysBeforeMonth d.year d.month + d.day

/-- Model of `date.weekday()`: Monday is 0, Sunday is 6. -/
def weekday (d : PyDate) : ℕ := (toOrdinal d + 6) % 7

/-- The following day's date (`date + timedelta(days=1)`). -/
def nextDay (d : PyDate) : PyDate :=
  if d.day < daysInMonth d.year d.month then ⟨d.year, d.month, d.day + 1⟩
  else if d.month < 12 then ⟨d.year, d.month + 1, 1⟩
  else ⟨d.year + 1, 1, 1⟩

/-- Zero-padded two-digit decimal numeral. -/
def pad2 (n : ℕ) : String := if n < 10 then "0" ++ toString n else toString n

/-- Zero-padded four-digit decimal numeral. -/
def pad4 (n : ℕ) : String :=
  if n < 10 then "000" ++ toString n
  else if n < 100 then "00" ++ toString n
  else if n < 1000 then "0" ++ toString n
  else toString n

/-- Model of `date.strftime("%Y-%m-%d")`. -/
def fmtDate (d : PyDate) : String :=
  pad4 d.year ++ "-" ++ pad2 d.month ++ "-" ++ pad2 d.day

/-- The weekend group-key rule of `analyze_transcript_with_gpt`
(`gpt_utils.py` lines 81-93): Saturday at or after 15:00 keys to the next
day, Saturday before 15:00 to that Saturday, Sunday to that Sunday, and
any other weekday to its own date; formatted `%Y-%m-%d`. -/
def groupKey (d : PyDate) (hour : ℕ) : String :=
  if weekday d = 5 then
    if hour ≥ 15 then fmtDate (nextDay d) else fmtDate d
  else if weekday d = 6 then fmtDate d
  else fmtDate d

/-- Modelled from the claim wording for comparison with `groupKey`: the
following day's date when the weekday is Saturday and the hour is at
least 15, otherwise the date itself, as an ISO calendar date string. -/
def groupKeySpec (d : PyDate) (hour : ℕ) : String :=
  if weekday d = 5 ∧ hour ≥ 15 then fmtDate (nextDay d) else fmtDate d

/-- Is this string a run of decimal digits? -/
def allDigits (cs : List Char) : Bool := cs.all Char.isDigit

/-- Value of an unsigned decimal digit string. -/
def digitsToNat (cs : List Char) : ℕ := cs.foldl (fun a c => a * 10 + digitVal c) 0

/-- Model of `datetime.strptime(gk, "%Y-%m-%d")` restricted to the date:
exactly four digits of year, a dash, one or two digits of month, a dash,
one or two digits of day, nothing else, with calendar validity checks
(`ValueError` is `none`). -/
def strptimeDate (s : String) : Option PyDate :=
  match splitChar '-' s.toList with
  | [ycs, mcs, dcs] =>
    if allDigits ycs ∧ allDigits mcs ∧ allDigits dcs ∧
        ycs.length = 4 ∧ 1 ≤ mcs.length ∧ mcs.length ≤ 2 ∧
        1 ≤ dcs.length ∧ dcs.length ≤ 2 then
      let y := digitsToNat ycs
      let m := digitsToNat mcs
      let d := digitsToNat dcs
      if 1 ≤ y ∧ 1 ≤ m ∧ m ≤ 12 ∧ 1 ≤ d ∧ d ≤ daysInMonth y m then
        some ⟨y, m, d⟩
      else none
    else none
  | _ => none

/-- Absolute time in seconds since 0001-01-01T00:00 UTC; `now` in the
sweep is compared against deadlines at this granularity. -/
def deadlineSecs (d : PyDate) : ℕ := (toOrdinal d - 1) * 86400 + 21 * 3600

example : strptimeDate "2025-01-05" = some ⟨2025, 1, 5⟩ := by decide
example : strptimeDate "2025-02-30" = none := by decide
example : strptimeDate "garbage" = none := by decide
example : weekday ⟨2025, 1, 4⟩ = 5 := by decide
example : groupKey ⟨2025, 1, 4⟩ 16 = "2025-01-05" := by decide
example : groupKey ⟨2025, 1, 4⟩ 10 = "2025-01-04" := by decide
example : groupKey ⟨2025, 1, 7⟩ 9 = "2025-01-07" := by decide

/-! Deviation sweep: `check_for_completed_weekends` (`helpers.py`).

The structured store is modelled by its two tables.  The classifier
collaborator is a function from the joined summaries string to a response;
`decodeError` models `json.loads` raising (caught by the surrounding
`except ValueError`, so the key is skipped without being marked),
`missingStatus` models a parsed object without a `"status"` field (the
`KeyError` is uncaught and aborts the whole sweep), and `ok status
summary` a well-formed response.  The sweep result also records, for the
claims, which group keys the classifier was invoked for and which
deviation notifications were sent to the alerting collaborator. -/

/-- One row of the `homilies` table (the fields the sweep reads). -/
structure HRow where
  group_key : String
  filename : String
  title : String
  description : String
  special : String
  deriving DecidableEq, Repr

/-- The structured store: the `homilies` table and the `compared_groups`
table (as the list of its `group_key` values, in insertion order). -/
structure Store where
  homilies : List HRow
  compared : List String
  deriving DecidableEq, Repr

/-- Response of the Deviation Classifier collaborator. -/
inductive ClsResp where
  | decodeError
  | missingStatus
  | ok (status : String) (summary : String)
  deriving DecidableEq, Repr

/-- Sweep state: the store plus the observable collaborator effects. -/
structure SweepState where
  store : Store
  calls : List String
  alerts : List (String × String)
  deriving DecidableEq, Repr

/-- The per-row structured summary built by the sweep. -/
def rowSummary (r : HRow) : String :=
  "Filename: " ++ r.filename ++ "\nTitle: " ++ r.title ++
    "\nDescription: " ++ r.description ++ "\nSpecial: " ++ r.special

/-- The joined `summaries_str` submitted to the classifier. -/
def summariesStr (rows : List HRow) : String :=
  String.intercalate "\n\n---\n\n" (rows.map rowSummary)

/-- Processing of one group key by the sweep (the body of the `for gk in
groups` loop, including its `try/except ValueError`).  Returns the new
state and whether the sweep aborts (the uncaught `KeyError`).  In the
`deviations` branch the source only logs: the `send_deviation_email` call
on `helpers.py` line 207 is commented out, so no alert is recorded for
any classifier status. -/
def keyStepWith (now : ℕ) (classify : String → ClsResp) (st : SweepState)
    (gk : String) : Option PyDate → SweepState × Bool
  | none => (st, false)
  | some d =>
    if now > deadlineSecs d then
      if st.store.compared.contains gk then (st, false)
      else
        if (st.store.homilies.filter (fun r => r.group_key = gk)).length ≥ 2 then
          match classify (summariesStr
              (st.store.homilies.filter (fun r => r.group_key = gk))) with
          | .decodeError => ({ st with calls := st.calls ++ [gk] }, false)
          | .missingStatus => ({ st with calls := st.calls ++ [gk] }, true)
          | .ok _ _ =>
            ({ st with
                store := { st.store with compared := st.store.compared ++ [gk] },
                calls := st.calls ++ [gk] }, false)
        else
          ({ st with
              store := { st.store with compared := st.store.compared ++ [gk] } },
            false)
    else (st, false)

def keyStep (now : ℕ) (classify : String → ClsResp) (st : SweepState)
    (gk : String) : SweepState × Bool :=
  keyStepWith now classify st gk (strptimeDate gk)

/-- Fold of `keyStep` over the group keys, stopping on abort. -/
def sweepGo (now : ℕ) (classify : String → ClsResp) :
    List String → SweepState → SweepState
  | [], st => st
  | gk :: rest, st =>
    match keyStep now classify st gk with
    | (st1, false) => sweepGo now classify rest st1
    | (st1, true) => st1

/-- The `SELECT DISTINCT group_key FROM homilies` result (the order is
unspecified by SQL; the claims do not depend on it). -/
def distinctKeys (rows : List HRow) : List String :=
  (rows.map (fun r => r.group_key)).dedup

/-- Model of `check_for_completed_weekends` (`helpers.py`): one scheduled
sweep at absolute time `now` (seconds, see `deadlineSecs`). -/
def check_for_completed_weekends (now : ℕ) (classify : String → ClsResp)
    (st : Store) : SweepState :=
  sweepGo now classify (distinctKeys st.homilies) ⟨st, [], []⟩

/-- Iterated sweeps, each with its own clock value and classifier. -/
def sweepIter (runs : List (ℕ × (String → ClsResp))) (st : Store) : Store :=
  runs.foldl (fun s p => (check_for_completed_weekends p.1 p.2 s).store) st

example :
    check_for_completed_weekends (739256 * 86400) (fun _ => .ok "similar" "s")
      ⟨[⟨"2025-01-05", "Mass-A.mp3", "T1", "D1", "S1"⟩], []⟩ =
      ⟨⟨[⟨"2025-01-05", "Mass-A.mp3", "T1", "D1", "S1"⟩], ["2025-01-05"]⟩,
       [], []⟩ := by decide

example :
    check_for_completed_weekends 0 (fun _ => .ok "similar" "s")
      ⟨[⟨"2025-01-05", "Mass-A.mp3", "T1", "D1", "S1"⟩], []⟩ =
      ⟨⟨[⟨"2025-01-05", "Mass-A.mp3", "T1", "D1", "S1"⟩], []⟩, [], []⟩ := by
  decide

/-! Helper lemmas about the string primitives. -/

theorem splitChar_ne_nil (sep : Char) (cs : List Char) : splitChar sep cs ≠ [] := by
  induction cs with
  | nil => simp [splitChar]
  | cons c rest ih =>
    unfold splitChar
    cases h : splitChar sep rest with
    | nil => simp
    | cons g gs => by_cases hc : c = sep <;> simp [hc]

theorem splitChar_no_sep {sep : Char} {cs : List Char} (h : sep ∉ cs) :
    splitChar sep cs = [cs] := by
  induction cs with
  | nil => rfl
  | cons c rest ih =>
    have hc : ¬c = sep := fun hcs => h (hcs ▸ List.mem_cons_self c rest)
    have hrest : sep ∉ rest := fun hm => h (List.mem_cons_of_mem c hm)
    unfold splitChar
    rw [ih hrest]
    simp [hc]

theorem splitChar_cons (sep c : Char) (rest : List Char) :
    splitChar sep (c :: rest) =
      match splitChar sep rest with
      | [] => [[]]
      | g :: gs => if c = sep then [] :: g :: gs else (c :: g) :: gs := rfl

theorem splitChar_append {sep : Char} (xs ys : List Char) (h : sep ∉ xs) :
    splitChar sep (xs ++ sep :: ys) = xs :: splitChar sep ys := by
  induction xs with
  | nil =>
    simp only [List.nil_append, splitChar_cons]
    cases hy : splitChar sep ys with
    | nil => exact absurd hy (splitChar_ne_nil sep ys)
    | cons g gs => simp
  | cons x xs ih =>
    have hx : ¬x = sep := fun hxs => h (hxs ▸ List.mem_cons_self x xs)
    have hxs : sep ∉ xs := fun hm => h (List.mem_cons_of_mem x hm)
    simp only [List.cons_append, splitChar_cons]
    rw [ih hxs]
    simp [hx]

theorem mem_of_mem_splitChar {sep : Char} {cs : List Char} :
    ∀ {p : List Char} {c : Char}, p ∈ splitChar sep cs → c ∈ p → c ∈ cs := by
  induction cs with
  | nil =>
    intro p c hp hc
    simp [splitChar] at hp
    subst hp
    exact absurd hc (List.not_mem_nil c)
  | cons x rest ih =>
    intro p c hp hc
    unfold splitChar at hp
    cases hrest : splitChar sep rest with
    | nil => exact absurd hrest (splitChar_ne_nil sep rest)
    | cons g gs =>
      rw [hrest] at hp
      by_cases hx : x = sep
      · simp only [hx, if_pos rfl] at hp
        rcases List.mem_cons.mp hp with rfl | hp2
        · exact absurd hc (List.not_mem_nil c)
        · exact List.mem_cons_of_mem x (ih (hrest ▸ hp2) hc)
      · simp only [if_neg hx] at hp
        rcases List.mem_cons.mp hp with rfl | hp2
        · rcases List.mem_cons.mp hc with rfl | hc2
          · exact List.mem_cons_self c rest
          · exact List.mem_cons_of_mem x
              (ih (hrest ▸ List.mem_cons_self g gs) hc2)
        · exact List.mem_cons_of_mem x
            (ih (hrest ▸ List.mem_cons_of_mem g hp2) hc)

theorem dropWhile_eq_self_of {p : Char → Bool} {l : List Char}
    (h : ∀ c ∈ l, p c = false) : l.dropWhile p = l := by
  cases l with
  | nil => rfl
  | cons c rest => simp [List.dropWhile_cons, h c (List.mem_cons_self c rest)]

theorem stripChars_eq_self {cs : List Char} (h : ∀ c ∈ cs, pySpace c = false) :
    stripChars cs = cs := by
  unfold stripChars
  rw [dropWhile_eq_self_of h, dropWhile_eq_self_of (fun c hc => h c (by
    simpa using hc)), List.reverse_reverse]

theorem mem_of_mem_stripChars {cs : List Char} {c : Char}
    (h : c ∈ stripChars cs) : c ∈ cs := by
  unfold stripChars at h
  have h1 := (List.dropWhile_sublist (l := (cs.dropWhile pySpace).reverse)
    (p := pySpace)).mem (List.mem_reverse.mp h)
  have h2 := (List.dropWhile_sublist (l := cs) (p := pySpace)).mem
    (List.mem_reverse.mp h1)
  exact h2

theorem digitsCore_digits {cs : List Char} :
    ∀ acc, (∀ c ∈ cs, c.isDigit = true) →
      digitsCore acc cs = some (cs.foldl (fun a c => a * 10 + digitVal c) acc) := by
  induction cs with
  | nil => intro acc _; rfl
  | cons c rest ih =>
    intro acc h
    unfold digitsCore
    rw [if_pos (h c (List.mem_cons_self c rest))]
    rw [ih _ (fun x hx => h x (List.mem_cons_of_mem c hx))]
    rfl

theorem decNat?_digits {cs : List Char} (h : ∀ c ∈ cs, c.isDigit = true)
    (hne : cs ≠ []) : decNat? cs = some (digitsToNat cs) := by
  cases cs with
  | nil => exact absurd rfl hne
  | cons c rest =>
    simp only [decNat?]
    rw [if_pos (h c (List.mem_cons_self c rest))]
    rw [digitsCore_digits _ (fun x hx => h x (List.mem_cons_of_mem c hx))]
    unfold digitsToNat
    simp

theorem not_pySpace_of_isDigit {c : Char} (h : c.isDigit = true) :
    pySpace c = false := by
  by_cases h1 : c = ' '
  · subst h1; exact absurd h (by decide)
  by_cases h2 : c = '\t'
  · subst h2; exact absurd h (by decide)
  by_cases h3 : c = '\n'
  · subst h3; exact absurd h (by decide)
  by_cases h4 : c = '\r'
  · subst h4; exact absurd h (by decide)
  by_cases h5 : c = '\x0b'
  · subst h5; exact absurd h (by decide)
  by_cases h6 : c = '\x0c'
  · subst h6; exact absurd h (by decide)
  simp [pySpace, h1, h2, h3, h4, h5, h6]

theorem pyInt_digits {cs : List Char} (h : ∀ c ∈ cs, c.isDigit = true)
    (hne : cs ≠ []) : pyInt cs = some (digitsToNat cs : ℤ) := by
  unfold pyInt
  rw [stripChars_eq_self (fun c hc => not_pySpace_of_isDigit (h c hc))]
  cases cs with
  | nil => exact absurd rfl hne
  | cons c rest =>
    have hcd := h c (List.mem_cons_self c rest)
    have hplus : ¬c = '+' := fun hq => by rw [hq] at hcd; exact absurd hcd (by decide)
    have hminus : ¬c = '-' := fun hq => by rw [hq] at hcd; exact absurd hcd (by decide)
    simp only [pyIntCore, if_neg hplus, if_neg hminus]
    rw [decNat?_digits h hne]
    rfl

theorem pyInt_nonneg_of_no_minus {cs : List Char} (h : '-' ∉ cs) :
    ∀ n : ℤ, pyInt cs = some n → 0 ≤ n := by
  intro n hn
  unfold pyInt at hn
  cases hs : stripChars cs with
  | nil => rw [hs] at hn; exact absurd hn (by simp [pyIntCore])
  | cons c rest =>
    rw [hs] at hn
    simp only [pyIntCore] at hn
    by_cases hplus : c = '+'
    · rw [if_pos hplus] at hn
      rcases Option.map_eq_some'.mp hn with ⟨k, _, hk⟩
      have hk2 : (k : ℤ) = n := hk
      omega
    · rw [if_neg hplus] at hn
      by_cases hminus : c = '-'
      · exfalso
        apply h
        apply @mem_of_mem_stripChars cs
        rw [hs, hminus]
        exact List.mem_cons_self _ _
      · rw [if_neg hminus] at hn
        rcases Option.map_eq_some'.mp hn with ⟨k, _, hk⟩
        have hk2 : (k : ℤ) = n := hk
        omega

theorem toList_mk (l : List Char) : (String.mk l).toList = l := rfl

theorem not_mem_of_all_digits {a : List Char} {c : Char}
    (ha : ∀ ch ∈ a, ch.isDigit = true) (hc : c.isDigit = false) : c ∉ a :=
  fun hm => by rw [ha c hm] at hc; exact Bool.noConfusion hc

theorem parseHMS_two {t f1 f2 : List Char} (hl : splitChar ':' t = [f1, f2]) :
    parseHMS t = (pyInt f1).bind fun m => (pyInt f2).bind fun s =>
      some (m * 60 + s) := by
  unfold parseHMS
  rw [hl]
  rfl

theorem parseHMS_three {t f1 f2 f3 : List Char}
    (hl : splitChar ':' t = [f1, f2, f3]) :
    parseHMS t = (pyInt f1).bind fun h => (pyInt f2).bind fun m =>
      (pyInt f3).bind fun s => some (h * 3600 + m * 60 + s) := by
  unfold parseHMS
  rw [hl]
  rfl

theorem parseHMS_none_of_len {t : List Char}
    (h2 : (splitChar ':' t).length ≠ 2) (h3 : (splitChar ':' t).length ≠ 3) :
    parseHMS t = none := by
  rcases hl : splitChar ':' t with _ | ⟨a, _ | ⟨b, _ | ⟨c, _ | ⟨d, r⟩⟩⟩⟩
  · unfold parseHMS; rw [hl]
  · unfold parseHMS; rw [hl]
  · exact absurd (by rw [hl]; rfl) h2
  · exact absurd (by rw [hl]; rfl) h3
  · unfold parseHMS; rw [hl]

theorem parseTs_nodot {ts : String} (hdot : ('.' : Char) ∉ ts.toList) :
    parse_timestamp ts = (parseHMS ts.toList).bind fun base =>
      some (base * 1000) := by
  unfold parse_timestamp
  rw [if_neg hdot]
  rfl

theorem parseTs_dot_two {ts : String} {t f : List Char}
    (hdot : ('.' : Char) ∈ ts.toList) (hl : splitChar '.' ts.toList = [t, f]) :
    parse_timestamp ts = (pyInt f).bind fun ms => (parseHMS t).bind fun base =>
      some (base * 1000 + ms) := by
  unfold parse_timestamp
  rw [if_pos hdot, hl]
  rfl

theorem parseTs_dot_other {ts : String} (hdot : ('.' : Char) ∈ ts.toList)
    (hlen : (splitChar '.' ts.toList).length ≠ 2) : parse_timestamp ts = none := by
  rcases hl : splitChar '.' ts.toList with _ | ⟨a, _ | ⟨b, _ | ⟨c, r⟩⟩⟩
  · unfold parse_timestamp; rw [if_pos hdot, hl]
  · unfold parse_timestamp; rw [if_pos hdot, hl]
  · exact absurd (by rw [hl]; rfl) hlen
  · unfold parse_timestamp; rw [if_pos hdot, hl]

theorem parseHMS_nonneg {t : List Char} (h : '-' ∉ t) :
    ∀ v : ℤ, parseHMS t = some v → 0 ≤ v := by
  intro v hv
  have hmem : ∀ f ∈ splitChar ':' t, ('-' : Char) ∉ f :=
    fun f hf hcf => h (mem_of_mem_splitChar hf hcf)
  rcases hl : splitChar ':' t with _ | ⟨f1, _ | ⟨f2, _ | ⟨f3, _ | ⟨f4, r⟩⟩⟩⟩
  · rw [parseHMS_none_of_len (by rw [hl]; simp) (by rw [hl]; simp)] at hv
    exact absurd hv (by simp)
  · rw [parseHMS_none_of_len (by rw [hl]; simp) (by rw [hl]; simp)] at hv
    exact absurd hv (by simp)
  · rw [parseHMS_two hl] at hv
    have h1 := hmem f1 (by rw [hl]; simp)
    have h2 := hmem f2 (by rw [hl]; simp)
    cases hp1 : pyInt f1 with
    | none => rw [hp1] at hv; exact absurd hv (by simp)
    | some m =>
      cases hp2 : pyInt f2 with
      | none => rw [hp1, hp2] at hv; exact absurd hv (by simp)
      | some s =>
        rw [hp1, hp2] at hv
        simp only [Option.some_bind, Option.some_inj] at hv
        have hm1 := pyInt_nonneg_of_no_minus h1 m hp1
        have hm2 := pyInt_nonneg_of_no_minus h2 s hp2
        omega
  · rw [parseHMS_three hl] at hv
    have h1 := hmem f1 (by rw [hl]; simp)
    have h2 := hmem f2 (by rw [hl]; simp)
    have h3 := hmem f3 (by rw [hl]; simp)
    cases hp1 : pyInt f1 with
    | none => rw [hp1] at hv; exact absurd hv (by simp)
    | some hh =>
      cases hp2 : pyInt f2 with
      | none => rw [hp1, hp2] at hv; exact absurd hv (by simp)
      | some m =>
        cases hp3 : pyInt f3 with
        | none => rw [hp1, hp2, hp3] at hv; exact absurd hv (by simp)
        | some s =>
          rw [hp1, hp2, hp3] at hv
          simp only [Option.some_bind, Option.some_inj] at hv
          have hm1 := pyInt_nonneg_of_no_minus h1 hh hp1
          have hm2 := pyInt_nonneg_of_no_minus h2 m hp2
          have hm3 := pyInt_nonneg_of_no_minus h3 s hp3
          omega
  · rw [parseHMS_none_of_len (by rw [hl]; simp) (by rw [hl]; simp)] at hv
    exact absurd hv (by simp)

/-- C7 counterexample: the claim says every successfully parsed result is a
non-negative number of seconds, but Python `int` accepts a sign, so
`parse_timestamp "0:-5"` succeeds with the negative value `-5` seconds
(here `-5000` ms). -/
theorem C7_counterexample :
    parse_timestamp "0:-5" = some (-5000) ∧ toSecs (-5000) < 0 :=
  ⟨by decide, by norm_num [toSecs]⟩

/-- C7 (amended): the timestamp parser treats the first of exactly three
numeric colon-separated fields as hours; with exactly two fields hours
default to 0; any other field count or a non-numeric field fails; a
fractional component contributes its integer value divided by 1000
seconds; and every successfully parsed result of an input containing no
minus sign is non-negative. -/
theorem C7_amended :
    (∀ a b c : List Char,
        (∀ ch ∈ a, ch.isDigit = true) → (∀ ch ∈ b, ch.isDigit = true) →
        (∀ ch ∈ c, ch.isDigit = true) → a ≠ [] → b ≠ [] → c ≠ [] →
        parse_timestamp ⟨a ++ ':' :: (b ++ ':' :: c)⟩ =
          some (((digitsToNat a : ℤ) * 3600 + (digitsToNat b : ℤ) * 60 +
            (digitsToNat c : ℤ)) * 1000))
  ∧ (∀ b c : List Char,
        (∀ ch ∈ b, ch.isDigit = true) → (∀ ch ∈ c, ch.isDigit = true) →
        b ≠ [] → c ≠ [] →
        parse_timestamp ⟨b ++ ':' :: c⟩ =
          some (((digitsToNat b : ℤ) * 60 + (digitsToNat c : ℤ)) * 1000))
  ∧ (∀ ts : String, ('.' : Char) ∉ ts.toList →
        (splitChar ':' ts.toList).length ≠ 2 →
        (splitChar ':' ts.toList).length ≠ 3 → parse_timestamp ts = none)
  ∧ (∀ ts : String, ('.' : Char) ∉ ts.toList →
        (∃ f ∈ splitChar ':' ts.toList, pyInt f = none) →
        parse_timestamp ts = none)
  ∧ (∀ t f : List Char, ('.' : Char) ∉ t → ('.' : Char) ∉ f →
        parse_timestamp ⟨t ++ '.' :: f⟩ =
          match pyInt f, parseHMS t with
          | some ms, some base => some (base * 1000 + ms)
          | _, _ => none)
  ∧ (∀ (ts : String) (v : Millis),
        parse_timestamp ts = some v → ('-' : Char) ∉ ts.toList → 0 ≤ v) := by
  refine ⟨?_, ?_, ?_, ?_, ?_, ?_⟩
  · intro a b c ha hb hc hna hnb hnc
    have hca : (':' : Char) ∉ a := not_mem_of_all_digits ha (by decide)
    have hcb : (':' : Char) ∉ b := not_mem_of_all_digits hb (by decide)
    have hcc : (':' : Char) ∉ c := not_mem_of_all_digits hc (by decide)
    have hdot : ('.' : Char) ∉ a ++ ':' :: (b ++ ':' :: c) := by
      intro hm
      rcases List.mem_append.mp hm with h1 | h1
      · exact not_mem_of_all_digits ha (by decide) h1
      · rcases List.mem_cons.mp h1 with h2 | h2
        · exact absurd h2 (by decide)
        · rcases List.mem_append.mp h2 with h3 | h3
          · exact not_mem_of_all_digits hb (by decide) h3
          · rcases List.mem_cons.mp h3 with h4 | h4
            · exact absurd h4 (by decide)
            · exact not_mem_of_all_digits hc (by decide) h4
    have hl : splitChar ':'
        (String.mk (a ++ ':' :: (b ++ ':' :: c))).toList = [a, b, c] := by
      rw [toList_mk, splitChar_append a (b ++ ':' :: c) hca,
        splitChar_append b c hcb, splitChar_no_sep hcc]
    rw [parseTs_nodot (by rw [toList_mk]; exact hdot), parseHMS_three hl,
      pyInt_digits ha hna, pyInt_digits hb hnb, pyInt_digits hc hnc]
    simp
  · intro b c hb hc hnb hnc
    have hcb : (':' : Char) ∉ b := not_mem_of_all_digits hb (by decide)
    have hcc : (':' : Char) ∉ c := not_mem_of_all_digits hc (by decide)
    have hdot : ('.' : Char) ∉ b ++ ':' :: c := by
      intro hm
      rcases List.mem_append.mp hm with h1 | h1
      · exact not_mem_of_all_digits hb (by decide) h1
      · rcases List.mem_cons.mp h1 with h2 | h2
        · exact absurd h2 (by decide)
        · exact not_mem_of_all_digits hc (by decide) h2
    have hl : splitChar ':' (String.mk (b ++ ':' :: c)).toList = [b, c] := by
      rw [toList_mk, splitChar_append b c hcb, splitChar_no_sep hcc]
    rw [parseTs_nodot (by rw [toList_mk]; exact hdot), parseHMS_two hl,
      pyInt_digits hb hnb, pyInt_digits hc hnc]
    simp
  · intro ts hdot h2 h3
    rw [parseTs_nodot hdot, parseHMS_none_of_len h2 h3]
    rfl
  · intro ts hdot hex
    rcases hex with ⟨f, hf, hpf⟩
    rw [parseTs_nodot hdot]
    have hnone : parseHMS ts.toList = none := by
      rcases hl : splitChar ':' ts.toList with _ | ⟨f1, _ | ⟨f2, _ | ⟨f3, _ | ⟨f4, r⟩⟩⟩⟩
      · rw [hl] at hf
        exact absurd hf (List.not_mem_nil f)
      · exact parseHMS_none_of_len (t := ts.toList)
          (by rw [hl]; simp only [List.length_cons, List.length_nil]; omega)
          (by rw [hl]; simp only [List.length_cons, List.length_nil]; omega)
      · rw [parseHMS_two hl]
        rw [hl] at hf
        rcases List.mem_cons.mp hf with rfl | hf2
        · simp [hpf]
        · rcases List.mem_singleton.mp hf2 with rfl
          cases hp1 : pyInt f1 <;> simp [hpf]
      · rw [parseHMS_three hl]
        rw [hl] at hf
        rcases List.mem_cons.mp hf with rfl | hf2
        · simp [hpf]
        · rcases List.mem_cons.mp hf2 with rfl | hf3
          · cases hp1 : pyInt f1 <;> simp [hpf]
          · rcases List.mem_singleton.mp hf3 with rfl
            cases hp1 : pyInt f1 <;> cases hp2 : pyInt f2 <;> simp [hpf]
      · exact parseHMS_none_of_len (t := ts.toList)
          (by rw [hl]; simp only [List.length_cons]; omega)
          (by rw [hl]; simp only [List.length_cons]; omega)
    rw [hnone]
    rfl
  · intro t f hdt hdf
    have hdot : ('.' : Char) ∈ (String.mk (t ++ '.' :: f)).toList := by
      rw [toList_mk]
      exact List.mem_append.mpr (Or.inr (List.mem_cons_self _ _))
    have hl : splitChar '.' (String.mk (t ++ '.' :: f)).toList = [t, f] := by
      rw [toList_mk, splitChar_append t f hdt, splitChar_no_sep hdf]
    rw [parseTs_dot_two hdot hl]
    cases hms : pyInt f <;> cases hb : parseHMS t <;> simp [hms, hb]
  · intro ts v hv hminus
    by_cases hdot : ('.' : Char) ∈ ts.toList
    · rcases hl : splitChar '.' ts.toList with _ | ⟨t, _ | ⟨f, _ | ⟨g, r⟩⟩⟩
      · rw [parseTs_dot_other hdot
          (by rw [hl]; simp only [List.length_nil]; omega)] at hv
        exact absurd hv (by simp)
      · rw [parseTs_dot_other hdot
          (by rw [hl]; simp only [List.length_cons, List.length_nil]; omega)] at hv
        exact absurd hv (by simp)
      · rw [parseTs_dot_two hdot hl] at hv
        have hmt : ('-' : Char) ∉ t := fun hc =>
          hminus (mem_of_mem_splitChar (p := t) (by rw [hl]; simp) hc)
        have hmf : ('-' : Char) ∉ f := fun hc =>
          hminus (mem_of_mem_splitChar (p := f) (by rw [hl]; simp) hc)
        cases hms : pyInt f with
        | none => rw [hms] at hv; exact absurd hv (by simp)
        | some ms =>
          cases hb : parseHMS t with
          | none => rw [hms, hb] at hv; exact absurd hv (by simp)
          | some base =>
            rw [hms, hb] at hv
            simp only [Option.some_bind, Option.some_inj] at hv
            have h1 := pyInt_nonneg_of_no_minus hmf ms hms
            have h2 := parseHMS_nonneg hmt base hb
            subst hv
            positivity
      · rw [parseTs_dot_other hdot
          (by rw [hl]; simp only [List.length_cons]; omega)] at hv
        exact absurd hv (by simp)
    · rw [parseTs_nodot hdot] at hv
      cases hb : parseHMS ts.toList with
      | none => rw [hb] at hv; exact absurd hv (by simp)
      | some base =>
        rw [hb] at hv
        simp only [Option.some_bind, Option.some_inj] at hv
        have h2 := parseHMS_nonneg hminus base hb
        subst hv
        positivity

/-- C7 witness: the amended theorem applied at the concrete input
`"1:02:03"`. -/
theorem C7_amended_witness : parse_timestamp "1:02:03" = some 3723000 := by
  have h := C7_amended.1 ['1'] ['0', '2'] ['0', '3'] (by decide) (by decide)
    (by decide) (by decide) (by decide) (by decide)
  have he : (⟨['1'] ++ ':' :: (['0', '2'] ++ ':' :: ['0', '3'])⟩ : String) =
      "1:02:03" := by decide
  rw [he] at h
  rw [h]
  decide

/-! Claim C6: the weekend group-key rule. -/

/-- C6: for every recording date and hour, the computed group key is the
following day's date when the weekday is Saturday (`weekday = 5`) and the
hour is at least 15, that Saturday's date when Saturday before 15:00, that
date on Sunday, and that date on any other weekday, formatted as an ISO
calendar date string — i.e. `groupKey` agrees with the claim-side rule
`groupKeySpec`. -/
theorem C6_groupKey_follows_rule (d : PyDate) (hour : ℕ) :
    groupKey d hour = groupKeySpec d hour := by
  unfold groupKey groupKeySpec
  by_cases h5 : weekday d = 5 <;> by_cases h15 : hour ≥ 15 <;>
    simp [h5, h15]

/-! Claim C2: effect of a malformed separator line on the cue parser. -/

/-- C2 counterexample: the separator line `"bad --> bad"` (whose timestamps
fail to parse) is not counted as an invalid timestamp, and it finalizes
the open cue: the open `hello` cue is appended at that line and appended
again (with extended text) at the next valid separator, so the output has
three entries and an invalid count of 0, where the claim predicts two
entries and a count of 1. -/
theorem C2_counterexample :
    parseVtt ["0:00.000 --> 0:01.000", "hello", "bad --> bad", "world",
        "0:02.000 --> 0:03.000", "x"] =
      ([⟨0, 1000, "hello"⟩, ⟨0, 1000, "hello world"⟩, ⟨2000, 3000, "x"⟩], 0) := by
  decide

/-- C2 (amended): a line containing `-->` whose content does not match the
separator timestamp pattern finalizes the currently open cue (when its
accumulated text is non-empty) but is otherwise ignored: it does not open
a cue, does not clear the text accumulator, and does not change the
invalid-timestamp count (which is incremented only when a pattern-matched
separator's timestamps fail to parse). -/
theorem C2_amended (st : VState) (ln : String)
    (h1 : containsSub "-->" (pyStrip ln) = true)
    (h2 : matchSepLine (pyStrip ln) = none) :
    vttStep st ln = ⟨finalizeCur st, st.cur, st.text, st.invalid⟩ := by
  have hne : ¬pyStrip ln = "" := by
    intro h
    rw [h] at h1
    exact absurd h1 (by decide)
  unfold vttStep
  rw [if_neg hne, if_pos h1, h2]
  rfl

/-- C2 witness: the amended theorem applied at a concrete open-cue state
and the concrete bad separator line `"bad --> bad"`. -/
theorem C2_amended_witness :
    vttStep ⟨[], some (0, 1000), " hello", 0⟩ "bad --> bad" =
      ⟨[⟨0, 1000, "hello"⟩], some (0, 1000), " hello", 0⟩ :=
  (C2_amended ⟨[], some (0, 1000), " hello", 0⟩ "bad --> bad" (by decide)
    (by decide)).trans (by decide)

/-! Claim C4: the `start ≤ end` cue invariant. -/

/-- C4 counterexample: the parser performs no ordering check, so a document
whose separator has its timestamps out of order yields a cue with
`start > end`. -/
theorem C4_counterexample :
    (parseVtt ["0:10.000 --> 0:05.000", "hello"]).1 = [⟨10000, 5000, "hello"⟩] ∧
      ¬((10000 : Millis) ≤ 5000) :=
  ⟨by decide, by decide⟩

theorem finalizeCur_none {st : VState} (hc : st.cur = none) :
    finalizeCur st = st.entries := by
  unfold finalizeCur
  rw [hc]

theorem finalizeCur_some {st : VState} {p q : Millis} (hc : st.cur = some (p, q)) :
    finalizeCur st =
      if pyStrip st.text ≠ "" then st.entries ++ [⟨p, q, pyStrip st.text⟩]
      else st.entries := by
  unfold finalizeCur
  rw [hc]

theorem finalizeCur_startle {st : VState}
    (hent : ∀ c ∈ st.entries, c.start ≤ c.«end»)
    (hcur : ∀ p q, st.cur = some (p, q) → p ≤ q) :
    ∀ c ∈ finalizeCur st, c.start ≤ c.«end» := by
  cases hc : st.cur with
  | none => rw [finalizeCur_none hc]; exact hent
  | some pq =>
    obtain ⟨p, q⟩ := pq
    rw [finalizeCur_some hc]
    by_cases ht : pyStrip st.text ≠ ""
    · rw [if_pos ht]
      intro c hcm
      rcases List.mem_append.mp hcm with hm1 | hm1
      · exact hent c hm1
      · rcases List.mem_singleton.mp hm1 with rfl
        exact hcur p q hc
    · rw [if_neg ht]
      exact hent

theorem vttStep_startle {st : VState} {ln : String}
    (hent : ∀ c ∈ st.entries, c.start ≤ c.«end»)
    (hcur : ∀ p q, st.cur = some (p, q) → p ≤ q)
    (hline : ∀ p q, lineStamps (pyStrip ln) = some (p, q) → p ≤ q) :
    (∀ c ∈ (vttStep st ln).entries, c.start ≤ c.«end») ∧
      (∀ p q, (vttStep st ln).cur = some (p, q) → p ≤ q) := by
  have hfin := finalizeCur_startle hent hcur
  unfold vttStep
  by_cases he : pyStrip ln = ""
  · rw [if_pos he]
    exact ⟨hent, hcur⟩
  rw [if_neg he]
  by_cases hc : containsSub "-->" (pyStrip ln) = true
  · rw [if_pos hc]
    cases hm : matchSepLine (pyStrip ln) with
    | none => simp only [sepStep]; exact ⟨hfin, hcur⟩
    | some ab =>
      obtain ⟨a, b⟩ := ab
      simp only [sepStep]
      cases hpa : parse_timestamp a with
      | none => simp only [newCueStep]; exact ⟨hfin, hcur⟩
      | some s =>
        cases hpb : parse_timestamp b with
        | none => simp only [newCueStep]; exact ⟨hfin, hcur⟩
        | some e2 =>
          simp only [newCueStep]
          have hse : s ≤ e2 := by
            apply hline
            unfold lineStamps
            rw [hm]
            show stampsPair (parse_timestamp a) (parse_timestamp b) = some (s, e2)
            rw [hpa, hpb]
            rfl
          refine ⟨hfin, ?_⟩
          intro p q hpq
          have h' : (s, e2) = (p, q) := Option.some_inj.mp hpq
          injection h' with hp hq
          subst hp
          subst hq
          exact hse
  · rw [if_neg hc]
    by_cases hc2 : st.cur.isSome = true
    · rw [if_pos hc2]
      exact ⟨hent, hcur⟩
    · rw [if_neg hc2]
      exact ⟨hent, hcur⟩

/-- C4 (amended): the cues produced by the parser copy each pattern-matched
separator's parsed timestamps verbatim, so every cue satisfies
`start ≤ end` provided every pattern-matched separator line of the
document parses to an ordered pair; the parser itself checks nothing, and
out-of-order separator timestamps yield a cue with `start > end`. -/
theorem C4_amended (lines : List String)
    (h : ∀ l ∈ lines, ∀ p q, lineStamps (pyStrip l) = some (p, q) → p ≤ q) :
    ∀ c ∈ (parseVtt lines).1, c.start ≤ c.«end» := by
  have hgen : ∀ (ls : List String) (st : VState),
      (∀ l ∈ ls, ∀ p q, lineStamps (pyStrip l) = some (p, q) → p ≤ q) →
      (∀ c ∈ st.entries, c.start ≤ c.«end») →
      (∀ p q, st.cur = some (p, q) → p ≤ q) →
      (∀ c ∈ (ls.foldl vttStep st).entries, c.start ≤ c.«end») ∧
        (∀ p q, (ls.foldl vttStep st).cur = some (p, q) → p ≤ q) := by
    intro ls
    induction ls with
    | nil => intro st _ hsent hscur; exact ⟨hsent, hscur⟩
    | cons l rest ih =>
      intro st hls hsent hscur
      simp only [List.foldl_cons]
      have hstep := vttStep_startle hsent hscur (hls l (List.mem_cons_self _ _))
      exact ih _ (fun l2 hl2 => hls l2 (List.mem_cons_of_mem _ hl2))
        hstep.1 hstep.2
  have hres := hgen lines ⟨[], none, "", 0⟩ h (by simp) (by simp)
  unfold parseVtt
  exact finalizeCur_startle hres.1 hres.2

/-- C4 witness: the amended theorem applied at a concrete well-ordered
document. -/
theorem C4_witness : (0 : Millis) ≤ 1000 := by
  have h := C4_amended ["0:00.000 --> 0:01.000", "hi"] ?_ ⟨0, 1000, "hi"⟩ (by decide)
  · exact h
  · intro l hl p q hpq
    rcases List.mem_cons.mp hl with rfl | hl2
    · have hc : lineStamps (pyStrip "0:00.000 --> 0:01.000") = some (0, 1000) := by
        decide
      rw [hc] at hpq
      have h' : ((0 : Millis), (1000 : Millis)) = (p, q) := Option.some_inj.mp hpq
      injection h' with hp hq
      subst hp
      subst hq
      decide
    · rcases List.mem_singleton.mp hl2 with rfl
      have hc : lineStamps (pyStrip "hi") = none := by decide
      rw [hc] at hpq
      exact absurd hpq (by simp)

/-! Claims C1, C5, C10: the deviation sweep. -/

theorem contains_false_not_mem {l : List String} {a : String}
    (h : ¬l.contains a = true) : a ∉ l := by
  intro hm
  exact h (List.elem_eq_true_of_mem hm)

theorem keyStep_spec (now : ℕ) (classify : String → ClsResp)
    (st : SweepState) (gk : String) :
    (keyStep now classify st gk).1.store.homilies = st.store.homilies ∧
    (∃ new, (keyStep now classify st gk).1.store.compared =
        st.store.compared ++ new ∧
      (∀ k ∈ new, k ∉ st.store.compared) ∧ new.Nodup) ∧
    (∃ newCalls, (keyStep now classify st gk).1.calls = st.calls ++ newCalls ∧
      (∀ k ∈ newCalls, k ∉ st.store.compared)) := by
  unfold keyStep
  cases hd : strptimeDate gk with
  | none =>
    simp only [keyStepWith]
    exact ⟨by simp, ⟨[], by simp⟩, ⟨[], by simp⟩⟩
  | some d =>
    simp only [keyStepWith]
    by_cases hnow : now > deadlineSecs d
    · rw [if_pos hnow]
      by_cases hcon : st.store.compared.contains gk = true
      · rw [if_pos hcon]
        exact ⟨rfl, ⟨[], by simp⟩, ⟨[], by simp⟩⟩
      · rw [if_neg hcon]
        have hnm : gk ∉ st.store.compared := contains_false_not_mem hcon
        by_cases hlen :
            (st.store.homilies.filter (fun r => r.group_key = gk)).length ≥ 2
        · rw [if_pos hlen]
          cases classify (summariesStr
              (st.store.homilies.filter (fun r => r.group_key = gk))) with
          | decodeError =>
            exact ⟨rfl, ⟨[], by simp⟩,
              ⟨[gk], by simp, by simpa using hnm⟩⟩
          | missingStatus =>
            exact ⟨rfl, ⟨[], by simp⟩,
              ⟨[gk], by simp, by simpa using hnm⟩⟩
          | ok status summary =>
            exact ⟨rfl, ⟨[gk], by simp, by simpa using hnm, by simp⟩,
              ⟨[gk], by simp, by simpa using hnm⟩⟩
        · rw [if_neg hlen]
          exact ⟨rfl, ⟨[gk], by simp, by simpa using hnm, by simp⟩,
            ⟨[], by simp⟩⟩
    · rw [if_neg hnow]
      exact ⟨rfl, ⟨[], by simp⟩, ⟨[], by simp⟩⟩

theorem sweepGo_spec (now : ℕ) (classify : String → ClsResp) :
    ∀ (ks : List String) (s : SweepState),
      (sweepGo now classify ks s).store.homilies = s.store.homilies ∧
      (∃ new, (sweepGo now classify ks s).store.compared =
          s.store.compared ++ new ∧
        (∀ k ∈ new, k ∉ s.store.compared) ∧ new.Nodup) ∧
      (∃ newCalls, (sweepGo now classify ks s).calls = s.calls ++ newCalls ∧
        (∀ k ∈ newCalls, k ∉ s.store.compared)) := by
  intro ks
  induction ks with
  | nil =>
    intro s
    simp only [sweepGo]
    exact ⟨by simp, ⟨[], by simp⟩, ⟨[], by simp⟩⟩
  | cons gk rest ih =>
    intro s
    have hk := keyStep_spec now classify s gk
    unfold sweepGo
    cases hkk : keyStep now classify s gk with
    | mk st1 ab =>
      rw [hkk] at hk
      obtain ⟨hhom1, ⟨new1, hc1, hf1, hn1⟩, ⟨calls1, hl1, hg1⟩⟩ := hk
      cases ab with
      | true => exact ⟨hhom1, ⟨new1, hc1, hf1, hn1⟩, ⟨calls1, hl1, hg1⟩⟩
      | false =>
        obtain ⟨hhom2, ⟨new2, hc2, hf2, hn2⟩, ⟨calls2, hl2, hg2⟩⟩ := ih st1
        refine ⟨hhom2.trans hhom1, ⟨new1 ++ new2, ?_, ?_, ?_⟩,
          ⟨calls1 ++ calls2, ?_, ?_⟩⟩
        · rw [hc2, hc1, List.append_assoc]
        · intro k hkm
          rcases List.mem_append.mp hkm with hm | hm
          · exact hf1 k hm
          · have := hf2 k hm
            rw [hc1] at this
            exact fun hmem => this (List.mem_append.mpr (Or.inl hmem))
        · rw [List.nodup_append]
          refine ⟨hn1, hn2, ?_⟩
          intro k hkm1 hkm2
          have := hf2 k hkm2
          rw [hc1] at this
          exact this (List.mem_append.mpr (Or.inr hkm1))
        · rw [hl2, hl1, List.append_assoc]
        · intro k hkm
          rcases List.mem_append.mp hkm with hm | hm
          · exact hg1 k hm
          · have := hg2 k hm
            rw [hc1] at this
            exact fun hmem => this (List.mem_append.mpr (Or.inl hmem))

/-- C10: the weekend deviation sweep never modifies the `homilies` table
(it only reads it), and its only store mutation is appending
`ComparisonRecord` rows to the `compared_groups` table. -/
theorem C10_sweep_frame (now : ℕ) (classify : String → ClsResp) (st : Store) :
    (check_for_completed_weekends now classify st).store.homilies = st.homilies ∧
    ∃ new, (check_for_completed_weekends now classify st).store.compared =
      st.compared ++ new := by
  unfold check_for_completed_weekends
  have h := sweepGo_spec now classify (distinctKeys st.homilies) ⟨st, [], []⟩
  obtain ⟨new, hn, _, _⟩ := h.2.1
  exact ⟨h.1, new, hn⟩

theorem sweep_nodup (now : ℕ) (classify : String → ClsResp) {st : Store}
    (h : st.compared.Nodup) :
    (check_for_completed_weekends now classify st).store.compared.Nodup := by
  unfold check_for_completed_weekends
  have hs := sweepGo_spec now classify (distinctKeys st.homilies) ⟨st, [], []⟩
  obtain ⟨new, hn, hf, hnd⟩ := hs.2.1
  rw [hn, List.nodup_append]
  exact ⟨h, hnd, fun k hk1 hk2 => hf k hk2 hk1⟩

/-- C5: at most one `ComparisonRecord` ever exists per group key (the
`compared_groups` list stays duplicate-free over any sequence of sweeps),
and a sweep performs no classifier call and no `compared_groups` write
for a key that is already marked compared. -/
theorem C5_compare_once (st : Store) (h : st.compared.Nodup) :
    (∀ runs : List (ℕ × (String → ClsResp)),
        (sweepIter runs st).compared.Nodup) ∧
    (∀ (now : ℕ) (classify : String → ClsResp) (gk : String),
        gk ∈ st.compared →
        gk ∉ (check_for_completed_weekends now classify st).calls ∧
        (check_for_completed_weekends now classify st).store.compared.count gk =
          st.compared.count gk) := by
  constructor
  · intro runs
    induction runs generalizing st with
    | nil => exact h
    | cons run rest ih =>
      exact ih ((check_for_completed_weekends run.1 run.2 st).store)
        (sweep_nodup run.1 run.2 h)
  · intro now classify gk hgk
    unfold check_for_completed_weekends
    have hs := sweepGo_spec now classify (distinctKeys st.homilies) ⟨st, [], []⟩
    obtain ⟨new, hn, hf, _⟩ := hs.2.1
    obtain ⟨calls, hcl, hcf⟩ := hs.2.2
    constructor
    · rw [hcl]
      intro hm
      rcases List.mem_append.mp hm with hm1 | hm1
      · exact absurd hm1 (List.not_mem_nil gk)
      · exact hcf gk hm1 hgk
    · rw [hn]
      have hc0 : (⟨st, [], []⟩ : SweepState).store.compared = st.compared := rfl
      rw [hc0, List.count_append]
      have hz : new.count gk = 0 := by
        rw [List.count_eq_zero]
        intro hm
        exact hf gk hm hgk
      rw [hz]
      exact Nat.add_zero _

/-- C5 witness: the theorem applied at a concrete store with one key
already marked compared. -/
theorem C5_compare_once_witness :
    ((sweepIter [(0, fun _ => ClsResp.ok "similar" "s")]
        ⟨[], ["2025-01-05"]⟩).compared).Nodup ∧
    "2025-01-05" ∉ (check_for_completed_weekends 0
        (fun _ => ClsResp.ok "similar" "s") ⟨[], ["2025-01-05"]⟩).calls := by
  have h := C5_compare_once ⟨[], ["2025-01-05"]⟩ (by decide)
  exact ⟨h.1 [(0, fun _ => ClsResp.ok "similar" "s")],
    (h.2 0 (fun _ => ClsResp.ok "similar" "s") "2025-01-05" (by decide)).1⟩

/-- C1: on a `deviations` classification the code only logs — the
`send_deviation_email` call (`helpers.py` line 207) is commented out, so
the alerting collaborator is never notified.  At a concrete past-deadline
store with two same-key summaries and a classifier answering
`deviations`, the sweep calls the classifier and marks the key compared,
but emits no alert. -/
theorem C1_no_deviation_alert :
    check_for_completed_weekends (739256 * 86400)
        (fun _ => ClsResp.ok "deviations" "the homilies differ")
        ⟨[⟨"2025-01-05", "Mass-A.mp3", "T1", "D1", "S1"⟩,
          ⟨"2025-01-05", "Mass-B.mp3", "T2", "D2", "S2"⟩], []⟩ =
      ⟨⟨[⟨"2025-01-05", "Mass-A.mp3", "T1", "D1", "S1"⟩,
         ⟨"2025-01-05", "Mass-B.mp3", "T2", "D2", "S2"⟩], ["2025-01-05"]⟩,
       ["2025-01-05"], []⟩ := by
  decide

/-! Claims C3, C8, C9: the boundary detector. -/

theorem truthyMs_some_of_ne {v : Millis} (hv : v ≠ 0) :
    truthyMs (some v) = true := by
  simp [truthyMs, hv]

theorem qmin_none {l : List Millis} (h : qmin l = none) : l = [] := by
  cases l with
  | nil => rfl
  | cons a rest =>
    simp only [qmin] at h
    cases hq : qmin rest with
    | none => rw [hq] at h; exact absurd h (by simp)
    | some b => rw [hq] at h; exact absurd h (by simp)

theorem qmin_mem : ∀ {l : List Millis} {m : Millis}, qmin l = some m → m ∈ l := by
  intro l
  induction l with
  | nil => intro m h; simp [qmin] at h
  | cons a rest ih =>
    intro m h
    simp only [qmin] at h
    cases hq : qmin rest with
    | none =>
      rw [hq] at h
      simp only [Option.some_inj] at h
      subst h
      exact List.mem_cons_self _ _
    | some b =>
      rw [hq] at h
      simp only [Option.some_inj] at h
      subst h
      rcases min_choice a b with hm | hm
      · rw [hm]; exact List.mem_cons_self _ _
      · rw [hm]; exact List.mem_cons_of_mem _ (ih hq)

theorem qmin_le : ∀ {l : List Millis} {m : Millis}, qmin l = some m →
    ∀ x ∈ l, m ≤ x := by
  intro l
  induction l with
  | nil => intro m h; simp [qmin] at h
  | cons a rest ih =>
    intro m h x hx
    simp only [qmin] at h
    cases hq : qmin rest with
    | none =>
      rw [hq] at h
      simp only [Option.some_inj] at h
      subst h
      rcases List.mem_cons.mp hx with rfl | hx2
      · exact le_refl _
      · rw [qmin_none hq] at hx2
        exact absurd hx2 (List.not_mem_nil x)
    | some b =>
      rw [hq] at h
      simp only [Option.some_inj] at h
      subst h
      rcases List.mem_cons.mp hx with rfl | hx2
      · exact min_le_left _ _
      · exact le_trans (min_le_right _ _) (ih hq x hx2)

theorem qmin_isSome {l : List Millis} (h : l ≠ []) : ∃ m, qmin l = some m := by
  cases hq : qmin l with
  | none => exact absurd (qmin_none hq) h
  | some m => exact ⟨m, rfl⟩

theorem scan2_ge (s : Millis) :
    ∀ (cs : List Cue) (win : List String) {e : Millis},
      scan2 s cs win = some e → s ≤ e := by
  intro cs
  induction cs with
  | nil => intro win e h; simp [scan2] at h
  | cons c rest ih =>
    intro win e h
    simp only [scan2] at h
    by_cases hlt : c.start < s
    · rw [if_pos hlt] at h
      exact ih win h
    · rw [if_neg hlt] at h
      by_cases hw : winMatches (pushWin win c.text) = true
      · rw [if_pos hw] at h
        simp only [Option.some_inj] at h
        subst h
        exact le_of_not_lt hlt
      · rw [if_neg hw] at h
        exact ih _ h

theorem scan1_hs_of_some : ∀ (cs : List Cue) {st : ScanS} {v : Millis},
    st.hs = some v → (scan1 cs st).hs = some v := by
  intro cs
  induction cs with
  | nil => intro st v h; simpa [scan1] using h
  | cons c rest ih =>
    intro st v h
    simp only [scan1]
    by_cases hg : isGospelCue c = true
    · rw [if_pos hg]
      exact ih h
    · rw [if_neg hg]
      have hset : setStart st c = st := by
        unfold setStart
        rw [if_neg]
        rintro ⟨_, h2, _⟩
        rw [h] at h2
        exact Option.noConfusion h2
      rw [hset]
      by_cases htr : truthyMs st.hs = true
      · rw [if_pos htr]
        by_cases hw : winMatches (pushWin st.win c.text) = true
        · rw [if_pos hw]
          exact h
        · rw [if_neg hw]
          exact ih h
      · rw [if_neg htr]
        exact ih h

theorem scan1_hs_cases : ∀ (cs : List Cue) (st : ScanS) {v : Millis},
    (scan1 cs st).hs = some v → st.hs = some v ∨ ∃ c ∈ cs, c.start = v := by
  intro cs
  induction cs with
  | nil =>
    intro st v h
    simp only [scan1] at h
    exact Or.inl h
  | cons c rest ih =>
    intro st v h
    simp only [scan1] at h
    by_cases hg : isGospelCue c = true
    · rw [if_pos hg] at h
      rcases ih _ h with h1 | ⟨c2, hc2, he2⟩
      · exact Or.inl h1
      · exact Or.inr ⟨c2, List.mem_cons_of_mem _ hc2, he2⟩
    · rw [if_neg hg] at h
      by_cases hcond : st.foundGospel = true ∧ st.hs = none ∧ pyStrip c.text ≠ ""
      · have hset : setStart st c = { st with hs := some c.start, win := [] } := by
          unfold setStart
          rw [if_pos hcond]
        rw [hset] at h
        dsimp only at h
        by_cases htr : truthyMs (some c.start) = true
        · rw [if_pos htr] at h
          by_cases hw : winMatches (pushWin [] c.text) = true
          · rw [if_pos hw] at h
            dsimp only at h
            simp only [Option.some_inj] at h
            exact Or.inr ⟨c, List.mem_cons_self _ _, h⟩
          · rw [if_neg hw] at h
            have h4 : some c.start = some v :=
              (scan1_hs_of_some rest (v := c.start) rfl).symm.trans h
            simp only [Option.some_inj] at h4
            exact Or.inr ⟨c, List.mem_cons_self _ _, h4⟩
        · rw [if_neg htr] at h
          have h4 : some c.start = some v :=
            (scan1_hs_of_some rest (v := c.start) rfl).symm.trans h
          simp only [Option.some_inj] at h4
          exact Or.inr ⟨c, List.mem_cons_self _ _, h4⟩
      · have hset : setStart st c = st := by
          unfold setStart
          rw [if_neg hcond]
        rw [hset] at h
        by_cases htr : truthyMs st.hs = true
        · rw [if_pos htr] at h
          by_cases hw : winMatches (pushWin st.win c.text) = true
          · rw [if_pos hw] at h
            exact Or.inl h
          · rw [if_neg hw] at h
            rcases ih _ h with h1 | ⟨c2, hc2, he2⟩
            · exact Or.inl h1
            · exact Or.inr ⟨c2, List.mem_cons_of_mem _ hc2, he2⟩
        · rw [if_neg htr] at h
          rcases ih _ h with h1 | ⟨c2, hc2, he2⟩
          · exact Or.inl h1
          · exact Or.inr ⟨c2, List.mem_cons_of_mem _ hc2, he2⟩

theorem scan1_he_none : ∀ (cs : List Cue) (st : ScanS),
    (scan1 cs st).hs = none → (scan1 cs st).he = st.he := by
  intro cs
  induction cs with
  | nil => intro st _; simp [scan1]
  | cons c rest ih =>
    intro st h
    simp only [scan1] at h ⊢
    by_cases hg : isGospelCue c = true
    · rw [if_pos hg] at h ⊢
      exact ih _ h
    · rw [if_neg hg] at h ⊢
      by_cases hcond : st.foundGospel = true ∧ st.hs = none ∧ pyStrip c.text ≠ ""
      · exfalso
        have hset : setStart st c = { st with hs := some c.start, win := [] } := by
          unfold setStart
          rw [if_pos hcond]
        rw [hset] at h
        dsimp only at h
        by_cases htr : truthyMs (some c.start) = true
        · rw [if_pos htr] at h
          by_cases hw : winMatches (pushWin [] c.text) = true
          · rw [if_pos hw] at h
            dsimp only at h
            exact Option.noConfusion h
          · rw [if_neg hw] at h
            exact Option.noConfusion
              ((scan1_hs_of_some rest (v := c.start) rfl).symm.trans h)
        · rw [if_neg htr] at h
          exact Option.noConfusion
            ((scan1_hs_of_some rest (v := c.start) rfl).symm.trans h)
      · have hset : setStart st c = st := by
          unfold setStart
          rw [if_neg hcond]
        rw [hset] at h ⊢
        by_cases htr : truthyMs st.hs = true
        · exfalso
          cases hhs : st.hs with
          | none => rw [hhs] at htr; exact absurd htr (by simp [truthyMs])
          | some v =>
            rw [if_pos htr] at h
            by_cases hw : winMatches (pushWin st.win c.text) = true
            · rw [if_pos hw] at h
              dsimp only at h
              rw [hhs] at h
              exact Option.noConfusion h
            · rw [if_neg hw] at h
              exact Option.noConfusion ((scan1_hs_of_some rest (v := v)
                (show ({ st with win := pushWin st.win c.text } : ScanS).hs =
                  some v from hhs)).symm.trans h)
        · rw [if_neg htr] at h ⊢
          exact ih _ h

theorem scan1_le : ∀ (cs : List Cue) (st : ScanS),
    cs.Pairwise (fun a b => a.start ≤ b.start) →
    (∀ v, st.hs = some v → ∀ c ∈ cs, v ≤ c.start) →
    st.he = none →
    ∀ {s e : Millis}, (scan1 cs st).hs = some s →
      (scan1 cs st).he = some e → s ≤ e := by
  intro cs
  induction cs with
  | nil =>
    intro st _ _ hhe s e _ he1
    simp only [scan1] at he1
    rw [hhe] at he1
    exact Option.noConfusion he1
  | cons c rest ih =>
    intro st hsort hstart hhe s e hs1 he1
    rcases List.pairwise_cons.mp hsort with ⟨hc, hrest⟩
    simp only [scan1] at hs1 he1
    by_cases hg : isGospelCue c = true
    · rw [if_pos hg] at hs1 he1
      refine ih _ hrest ?_ ?_ hs1 he1
      · exact fun v hv c2 hc2 => hstart v hv c2 (List.mem_cons_of_mem _ hc2)
      · exact hhe
    · rw [if_neg hg] at hs1 he1
      by_cases hcond : st.foundGospel = true ∧ st.hs = none ∧ pyStrip c.text ≠ ""
      · have hset : setStart st c = { st with hs := some c.start, win := [] } := by
          unfold setStart
          rw [if_pos hcond]
        rw [hset] at hs1 he1
        dsimp only at hs1 he1
        by_cases htr : truthyMs (some c.start) = true
        · rw [if_pos htr] at hs1 he1
          by_cases hw : winMatches (pushWin [] c.text) = true
          · rw [if_pos hw] at hs1 he1
            dsimp only at hs1 he1
            simp only [Option.some_inj] at hs1 he1
            rw [← hs1, ← he1]
          · rw [if_neg hw] at hs1 he1
            refine ih _ hrest ?_ ?_ hs1 he1
            · intro v hv c2 hc2
              have hcv : c.start = v := Option.some_inj.mp hv
              exact hcv ▸ hc c2 hc2
            · exact hhe
        · rw [if_neg htr] at hs1 he1
          refine ih _ hrest ?_ ?_ hs1 he1
          · intro v hv c2 hc2
            have hcv : c.start = v := Option.some_inj.mp hv
            exact hcv ▸ hc c2 hc2
          · exact hhe
      · have hset : setStart st c = st := by
          unfold setStart
          rw [if_neg hcond]
        rw [hset] at hs1 he1
        by_cases htr : truthyMs st.hs = true
        · cases hhs : st.hs with
          | none => rw [hhs] at htr; exact absurd htr (by simp [truthyMs])
          | some v0 =>
            rw [if_pos htr] at hs1 he1
            by_cases hw : winMatches (pushWin st.win c.text) = true
            · rw [if_pos hw] at hs1 he1
              dsimp only at hs1 he1
              rw [hhs] at hs1
              simp only [Option.some_inj] at hs1 he1
              rw [← hs1, ← he1]
              exact hstart v0 hhs c (List.mem_cons_self _ _)
            · rw [if_neg hw] at hs1 he1
              refine ih _ hrest ?_ ?_ hs1 he1
              · exact fun v hv c2 hc2 => hstart v hv c2 (List.mem_cons_of_mem _ hc2)
              · exact hhe
        · rw [if_neg htr] at hs1 he1
          refine ih _ hrest ?_ ?_ hs1 he1
          · exact fun v hv c2 hc2 => hstart v hv c2 (List.mem_cons_of_mem _ hc2)
          · exact hhe

theorem scan2_char (s : Millis) : ∀ (cs : List Cue) (w : List String),
    scan2 s cs w = endScanSpec (cs.filter (fun c => s ≤ c.start)) w := by
  intro cs
  induction cs with
  | nil => intro w; rfl
  | cons c rest ih =>
    intro w
    simp only [scan2, List.filter_cons]
    by_cases hlt : c.start < s
    · rw [if_pos hlt]
      have hd : decide (s ≤ c.start) = false := decide_eq_false (not_le.mpr hlt)
      rw [hd, if_neg Bool.false_ne_true]
      exact ih w
    · rw [if_neg hlt]
      have hd : decide (s ≤ c.start) = true := decide_eq_true (not_lt.mp hlt)
      rw [hd, if_pos rfl]
      simp only [endScanSpec]
      by_cases hw : winMatches (pushWin w c.text) = true
      · rw [if_pos hw, if_pos hw]
      · rw [if_neg hw, if_neg hw]
        exact ih _

theorem scan1_he_char : ∀ (cs : List Cue) (st : ScanS) (v : Millis),
    st.hs = some v → v ≠ 0 → st.he = none →
    (scan1 cs st).he =
      endScanSpec (cs.filter (fun c => !isGospelCue c)) st.win := by
  intro cs
  induction cs with
  | nil =>
    intro st v hv h0 hhe
    simp only [scan1, List.filter_nil]
    rw [hhe]
    rfl
  | cons c rest ih =>
    intro st v hv h0 hhe
    simp only [scan1, List.filter_cons]
    by_cases hg : isGospelCue c = true
    · rw [if_pos hg]
      have hd : (!isGospelCue c) = false := by rw [hg]; rfl
      rw [hd, if_neg Bool.false_ne_true]
      exact ih _ v hv h0 hhe
    · rw [if_neg hg]
      have hgf : isGospelCue c = false := by
        revert hg
        cases isGospelCue c <;> simp
      have hd : (!isGospelCue c) = true := by rw [hgf]; rfl
      rw [hd, if_pos rfl]
      have hset : setStart st c = st := by
        unfold setStart
        rw [if_neg]
        rintro ⟨_, h2, _⟩
        rw [hv] at h2
        exact Option.noConfusion h2
      rw [hset]
      have htr : truthyMs st.hs = true := by
        rw [hv]
        exact truthyMs_some_of_ne h0
      rw [if_pos htr]
      simp only [endScanSpec]
      by_cases hw : winMatches (pushWin st.win c.text) = true
      · rw [if_pos hw, if_pos hw]
      · rw [if_neg hw, if_neg hw]
        exact ih _ v hv h0 hhe

theorem detectEnd_he_none (entries : List Cue) (s : Millis) :
    detectEnd entries none s =
      orElseO ((entries.getLast?).map Cue.«end») (scan2 s entries []) := rfl

theorem start_le_getLast : ∀ (entries : List Cue),
    entries.Pairwise (fun a b => a.start ≤ b.start) →
    ∀ {c : Cue}, c ∈ entries → ∀ hne : entries ≠ [],
      c.start ≤ (entries.getLast hne).start := by
  intro entries
  induction entries with
  | nil => intro _ c hc; exact absurd hc (List.not_mem_nil c)
  | cons a rest ih =>
    intro hsort c hc hne
    rcases List.pairwise_cons.mp hsort with ⟨ha, hrest⟩
    rcases List.mem_cons.mp hc with rfl | hc2
    · cases rest with
      | nil => simp [List.getLast]
      | cons b rs =>
        rw [List.getLast_cons (by simp : (b :: rs) ≠ [])]
        exact ha _ (List.getLast_mem (by simp))
    · cases rest with
      | nil => exact absurd hc2 (List.not_mem_nil c)
      | cons b rs =>
        rw [List.getLast_cons (by simp : (b :: rs) ≠ [])]
        exact ih hrest hc2 (by simp)

theorem resolveFallback_some {entries : List Cue} {t s : Millis}
    (h : resolveFallback entries t = some s) : ∃ c ∈ entries, c.start = s := by
  unfold resolveFallback at h
  cases hq : qmin ((entries.filter (fun c => t ≤ c.start)).map Cue.start) with
  | some m =>
    rw [hq] at h
    simp only [orElseO, Option.some_inj] at h
    subst h
    rcases List.mem_map.mp (qmin_mem hq) with ⟨c, hcf, hcs⟩
    exact ⟨c, (List.mem_filter.mp hcf).1, hcs⟩
  | none =>
    rw [hq] at h
    simp only [orElseO] at h
    cases hl : entries.getLast? with
    | none => rw [hl] at h; exact absurd h (by simp)
    | some lc =>
      rw [hl] at h
      simp only [Option.map_some', Option.some_inj] at h
      refine ⟨lc, ?_, h⟩
      have hne : entries ≠ [] := by
        intro he
        rw [he] at hl
        exact Option.noConfusion hl
      rw [List.getLast?_eq_getLast_of_ne_nil hne] at hl
      simp only [Option.some_inj] at hl
      rw [← hl]
      exact List.getLast_mem hne

theorem resolveFallback_min {entries : List Cue} {t s : Millis}
    (h : resolveFallback entries t = some s)
    (hex : ∃ c ∈ entries, t ≤ c.start) :
    (∃ c ∈ entries, c.start = s ∧ t ≤ c.start) ∧
      ∀ c ∈ entries, t ≤ c.start → s ≤ c.start := by
  obtain ⟨c0, hc0, ht0⟩ := hex
  have hmemf : c0 ∈ entries.filter (fun c => t ≤ c.start) :=
    List.mem_filter.mpr ⟨hc0, decide_eq_true ht0⟩
  have hne : (entries.filter (fun c => t ≤ c.start)).map Cue.start ≠ [] :=
    List.ne_nil_of_mem (List.mem_map_of_mem _ hmemf)
  obtain ⟨m, hq⟩ := qmin_isSome hne
  unfold resolveFallback at h
  rw [hq] at h
  simp only [orElseO, Option.some_inj] at h
  subst h
  constructor
  · rcases List.mem_map.mp (qmin_mem hq) with ⟨c, hcf, hcs⟩
    rcases List.mem_filter.mp hcf with ⟨hce, hct⟩
    exact ⟨c, hce, hcs, of_decide_eq_true hct⟩
  · intro c hce hct
    exact qmin_le hq c.start
      (List.mem_map_of_mem _ (List.mem_filter.mpr ⟨hce, decide_eq_true hct⟩))

theorem resolveFallback_last {entries : List Cue} {t : Millis}
    (hlt : ∀ c ∈ entries, c.start < t) (hne : entries ≠ []) :
    resolveFallback entries t = some (entries.getLast hne).start := by
  unfold resolveFallback
  have hfe : entries.filter (fun c => t ≤ c.start) = [] := by
    rw [List.filter_eq_nil_iff]
    intro c hce
    simp only [decide_eq_true_eq]
    exact not_le.mpr (hlt c hce)
  rw [hfe, List.map_nil, List.getLast?_eq_getLast_of_ne_nil hne]
  rfl

theorem resolveFallback_isSome {entries : List Cue} (hne : entries ≠ [])
    (t : Millis) : ∃ s, resolveFallback entries t = some s := by
  unfold resolveFallback
  cases hq : qmin ((entries.filter (fun c => t ≤ c.start)).map Cue.start) with
  | some m => exact ⟨m, rfl⟩
  | none =>
    exact ⟨(entries.getLast hne).start,
      by rw [List.getLast?_eq_getLast_of_ne_nil hne]; rfl⟩

theorem detectEnd_isSome {entries : List Cue} (hne : entries ≠ [])
    (s : Millis) : ∃ e, detectEnd entries none s = some e := by
  unfold detectEnd
  cases h2 : scan2 s entries [] with
  | some e => exact ⟨e, rfl⟩
  | none =>
    exact ⟨(entries.getLast hne).«end»,
      by rw [List.getLast?_eq_getLast_of_ne_nil hne]; rfl⟩

theorem detectEnd_ge {entries : List Cue} {s e : Millis}
    (hsort : entries.Pairwise (fun a b => a.start ≤ b.start))
    (hse : ∀ c ∈ entries, c.start ≤ c.«end»)
    (hmem : ∃ c ∈ entries, c.start = s)
    (h : detectEnd entries none s = some e) : s ≤ e := by
  unfold detectEnd at h
  cases h2 : scan2 s entries [] with
  | some e2 =>
    rw [h2] at h
    simp only [orElseO, Option.some_inj] at h
    subst h
    exact scan2_ge s entries [] h2
  | none =>
    rw [h2] at h
    simp only [orElseO] at h
    cases hl : entries.getLast? with
    | none => rw [hl] at h; exact absurd h (by simp)
    | some lc =>
      rw [hl] at h
      simp only [Option.map_some', Option.some_inj] at h
      have hne : entries ≠ [] := by
        intro hnil
        rw [hnil] at hl
        exact Option.noConfusion hl
      rw [List.getLast?_eq_getLast_of_ne_nil hne] at hl
      simp only [Option.some_inj] at hl
      obtain ⟨c, hce, hcs⟩ := hmem
      calc s = c.start := hcs.symm
        _ ≤ (entries.getLast hne).start := start_le_getLast entries hsort hce hne
        _ ≤ (entries.getLast hne).«end» := hse _ (List.getLast_mem hne)
        _ = lc.«end» := by rw [hl]
        _ = e := h

/-- C3 counterexample: after the homily start is set at the cue starting at
3000, the cue starting at 5000 contains the gospel-end marker
`praise to you`, so the first scan skips it (its text never enters the
window), and the detector ends the homily at 7000; the claim's
no-cue-skipped procedure would have matched at that cue (its window
contains `we pray to the lord`, as the second conjunct shows) and chosen
5000. -/
theorem C3_counterexample :
    detect [⟨1000, 2000, "The Gospel of the Lord"⟩,
        ⟨3000, 4000, "opening words"⟩,
        ⟨5000, 6000, "praise to you we pray to the lord"⟩,
        ⟨7000, 8000, "lord, hear our prayer"⟩] none = some (3000, 7000) ∧
    winMatches (pushWin (pushWin [] "opening words")
        "praise to you we pray to the lord") = true :=
  ⟨by decide, by decide⟩

/-- C3 (amended): once the homily start is set (to a non-zero offset), the
first scan appends to the capacity-10 window the text of every subsequent
cue except those containing a gospel-end marker (which are skipped), tests
the window after each append, and sets the end to the first matching cue's
start; the re-scan from the homily start skips no cue and applies the same
first-match window test; and when a loop-1 end is absent the resolved end
is the re-scan's first match, defaulting to the last cue's end. -/
theorem C3_amended :
    (∀ (cs : List Cue) (st : ScanS) (v : Millis),
        st.hs = some v → v ≠ 0 → st.he = none →
        (scan1 cs st).he =
          endScanSpec (cs.filter (fun c => !isGospelCue c)) st.win)
  ∧ (∀ (s : Millis) (cs : List Cue) (w : List String),
        scan2 s cs w = endScanSpec (cs.filter (fun c => s ≤ c.start)) w)
  ∧ (∀ (s : Millis) (entries : List Cue),
        detectEnd entries none s =
          orElseO ((entries.getLast?).map Cue.«end»)
            (endScanSpec (entries.filter (fun c => s ≤ c.start)) [])) := by
  refine ⟨scan1_he_char, scan2_char, ?_⟩
  intro s entries
  rw [detectEnd_he_none, scan2_char]

/-- C3 witness: the amended theorem applied at a concrete scan state with
the start already set; the gospel-marker cue is skipped and the end comes
from the following cue. -/
theorem C3_amended_witness :
    (scan1 [⟨5000, 6000, "praise to you"⟩, ⟨7000, 8000, "we pray to the lord"⟩]
        ⟨false, some 3000, none, []⟩).he = some 7000 := by
  have h := C3_amended.1
    [⟨5000, 6000, "praise to you"⟩, ⟨7000, 8000, "we pray to the lord"⟩]
    ⟨false, some 3000, none, []⟩ 3000 rfl (by decide) rfl
  rw [h]
  decide

/-- C9 counterexample: a chronological cue sequence with `start ≤ end` on
every cue on which the detector produces the window `(5000, 5000)` of zero
duration: the first cue after the gospel marker itself contains an
end-marker phrase. -/
theorem C9_counterexample :
    detect [⟨1000, 2000, "the gospel of the lord"⟩,
        ⟨5000, 6000, "we pray to the lord"⟩] none = some (5000, 5000) ∧
    (∀ c ∈ ([⟨1000, 2000, "the gospel of the lord"⟩,
        ⟨5000, 6000, "we pray to the lord"⟩] : List Cue), c.start ≤ c.«end») ∧
    List.Pairwise (fun a b => a.start ≤ b.start)
      ([⟨1000, 2000, "the gospel of the lord"⟩,
        ⟨5000, 6000, "we pray to the lord"⟩] : List Cue) ∧
    ¬((5000 : Millis) - 5000 > 0) :=
  ⟨by decide, by decide, by decide, by decide⟩

/-- C9 (amended): under the upstream invariants (every cue has
`start ≤ end` and the sequence is chronological), every window the
detector produces has non-negative duration, `start ≤ end`; zero duration
is reachable (see the counterexample), negative duration is not. -/
theorem C9_amended (entries : List Cue) (gpt : Option String)
    (hse : ∀ c ∈ entries, c.start ≤ c.«end»)
    (hsort : entries.Pairwise (fun a b => a.start ≤ b.start)) :
    ∀ {s e : Millis}, detect entries gpt = some (s, e) → s ≤ e := by
  intro s e hdet
  unfold detect at hdet
  cases hstart : orElseO (fallbackStart entries gpt) (scan1 entries initScan).hs with
  | none =>
    rw [hstart] at hdet
    simp only [windowFrom] at hdet
    exact Option.noConfusion hdet
  | some s0 =>
    rw [hstart] at hdet
    simp only [windowFrom] at hdet
    cases hend : detectEnd entries (scan1 entries initScan).he s0 with
    | none =>
      rw [hend] at hdet
      simp only [pairEnd] at hdet
      exact Option.noConfusion hdet
    | some e0 =>
      rw [hend] at hdet
      simp only [pairEnd, Option.some_inj] at hdet
      injection hdet with h1 h2
      subst h1
      subst h2
      cases hrh : (scan1 entries initScan).hs with
      | some v =>
        have hveq : v = s0 := by
          rw [hrh] at hstart
          simpa [orElseO] using hstart
        subst hveq
        cases hrhe : (scan1 entries initScan).he with
        | some e1 =>
          have he1 : e1 = e0 := by
            rw [hrhe] at hend
            simpa [detectEnd, orElseO] using hend
          subst he1
          exact scan1_le entries initScan hsort
            (fun v2 hv2 => absurd hv2 (by simp [initScan])) rfl hrh hrhe
        | none =>
          rw [hrhe] at hend
          have hmem : ∃ c ∈ entries, c.start = v :=
            (scan1_hs_cases entries initScan hrh).resolve_left
              (by simp [initScan])
          exact detectEnd_ge hsort hse hmem hend
      | none =>
        have hrhe : (scan1 entries initScan).he = none :=
          (scan1_he_none entries initScan hrh).trans rfl
        rw [hrhe] at hend
        have hfb : fallbackStart entries gpt = some s0 := by
          rw [hrh] at hstart
          simpa [orElseO] using hstart
        have hmem : ∃ c ∈ entries, c.start = s0 := by
          cases gpt with
          | none => simp [fallbackStart] at hfb
          | some gs =>
            simp only [fallbackStart] at hfb
            by_cases hgs : gs = ""
            · rw [if_pos hgs] at hfb
              exact Option.noConfusion hfb
            · rw [if_neg hgs] at hfb
              cases hp : parse_timestamp gs with
              | none =>
                rw [hp] at hfb
                simp [fallbackFromParse] at hfb
              | some t =>
                rw [hp] at hfb
                simp only [fallbackFromParse] at hfb
                exact resolveFallback_some hfb
        exact detectEnd_ge hsort hse hmem hend

/-- C9 witness: the amended theorem applied at the concrete zero-duration
input. -/
theorem C9_amended_witness : (5000 : Millis) ≤ 5000 :=
  C9_amended [⟨1000, 2000, "the gospel of the lord"⟩,
      ⟨5000, 6000, "we pray to the lord"⟩] none
    (by decide) (by decide) (by decide)

/-- C8: when the heuristics find no homily start, a fallback response that
is an API error or undecodable (`none`), empty, or unparseable yields no
window at all; a parseable candidate `t` resolves the start to the
smallest cue start that is at least `t` (the earliest such cue), or to the
last cue's start when no cue qualifies, and a window is then produced. -/
theorem C8_fallback (entries : List Cue)
    (hno : (scan1 entries initScan).hs = none) :
    detect entries none = none
  ∧ detect entries (some "") = none
  ∧ (∀ gs : String, parse_timestamp gs = none → detect entries (some gs) = none)
  ∧ (entries = [] → ∀ gs : String, detect entries (some gs) = none)
  ∧ (∀ (gs : String) (t : Millis), gs ≠ "" → parse_timestamp gs = some t →
      ∀ hne : entries ≠ [],
        ∃ s e, detect entries (some gs) = some (s, e) ∧
          ((∃ c ∈ entries, t ≤ c.start) →
            (∃ c ∈ entries, c.start = s ∧ t ≤ c.start) ∧
              ∀ c ∈ entries, t ≤ c.start → s ≤ c.start) ∧
          ((∀ c ∈ entries, c.start < t) → s = (entries.getLast hne).start)) := by
  refine ⟨?_, ?_, ?_, ?_, ?_⟩
  · unfold detect
    rw [hno]
    rfl
  · unfold detect
    rw [hno]
    rfl
  · intro gs hp
    unfold detect
    rw [hno]
    have hfb : fallbackStart entries (some gs) = none := by
      by_cases hgs : gs = ""
      · subst hgs; rfl
      · simp only [fallbackStart]
        rw [if_neg hgs, hp]
        rfl
    rw [hfb]
    rfl
  · intro hemp gs
    subst hemp
    unfold detect
    rw [hno]
    have hfb2 : fallbackStart [] (some gs) = none := by
      by_cases hgs : gs = ""
      · subst hgs; rfl
      · simp only [fallbackStart]
        rw [if_neg hgs]
        cases hp : parse_timestamp gs with
        | none => rfl
        | some t => rfl
    rw [hfb2]
    rfl
  · intro gs t hgs hp hne
    have hfb : fallbackStart entries (some gs) = resolveFallback entries t := by
      simp only [fallbackStart]
      rw [if_neg hgs, hp]
      rfl
    obtain ⟨s0, hrf⟩ := resolveFallback_isSome hne t
    have hrhe : (scan1 entries initScan).he = none :=
      (scan1_he_none entries initScan hno).trans rfl
    obtain ⟨e0, hde⟩ := detectEnd_isSome hne s0
    refine ⟨s0, e0, ?_, ?_, ?_⟩
    · unfold detect
      rw [hno, hfb, hrf]
      simp only [orElseO, windowFrom]
      rw [hrhe, hde]
      rfl
    · intro hex
      exact resolveFallback_min hrf hex
    · intro hlt
      exact Option.some_inj.mp (hrf.symm.trans (resolveFallback_last hlt hne))

/-- C8 witness: the theorem applied at a concrete cue list on which the
heuristics find no start. -/
theorem C8_fallback_witness :
    detect [⟨2000, 3000, "hello there"⟩] none = none ∧
    detect [⟨2000, 3000, "hello there"⟩] (some "") = none := by
  have h := C8_fallback [⟨2000, 3000, "hello there"⟩] (by decide)
  exact ⟨h.1, h.2.1⟩

end HomilyMonitor
